import Mathlib

/-!
Verification development for the BenchSmart repository's cross-source
schema-normalization and entity-merge engine
(source: Test Programs/merge_kaggle_phone_csvs.py).

Python strings are modelled as Lean `String` (a list of characters); the
string primitives used by the source (strip, lower, split, replace) are
given explicit ASCII-faithful definitions below.  Python dicts are modelled
as association lists in insertion order: assignment to an existing key
keeps its position, assignment to a fresh key appends at the end, exactly
as CPython dicts behave.  Machine floats never undergo arithmetic in the
source; a float value is represented by the decimal literal it was parsed
from, and its `str()` form by the canonical decimal form (leading/trailing
zeros removed), which agrees with CPython's shortest round-trip repr on
the short literals this program extracts.
-/

namespace BenchSmart

set_option maxRecDepth 1000000
set_option maxHeartbeats 4000000

/-- Python whitespace characters relevant to `str.strip` / `str.split`
(ASCII fragment: space, tab, newline, carriage return, vertical tab,
form feed). -/
def pyIsSpace (c : Char) : Bool :=
  c = ' ' || c = '\t' || c = '\n' || c = '\r' || c = '\x0b' || c = '\x0c'

/-- ASCII decimal digit test (Python's regex `\d` on ASCII input). -/
def pyIsDigit (c : Char) : Bool :=
  48 ≤ c.toNat && c.toNat ≤ 57

/-- ASCII uppercase test (Python `str.isupper` on a single character). -/
def pyIsUpperC (c : Char) : Bool :=
  65 ≤ c.toNat && c.toNat ≤ 90

/-- ASCII lowercase test. -/
def pyIsLowerC (c : Char) : Bool :=
  97 ≤ c.toNat && c.toNat ≤ 122

/-- ASCII cased-character test (`str.isupper` looks only at cased chars). -/
def pyIsCased (c : Char) : Bool :=
  pyIsUpperC c || pyIsLowerC c

/-- Python `str.lower` on one ASCII character. -/
def pyLowerC (c : Char) : Char :=
  if pyIsUpperC c then Char.ofNat (c.toNat + 32) else c

/-- Characters of a string. -/
def strChars (s : String) : List Char := s.data

/-- Python `str.strip()` on a character list: drop whitespace from both ends. -/
def trimChars (cs : List Char) : List Char :=
  ((cs.dropWhile pyIsSpace).reverse.dropWhile pyIsSpace).reverse

/-- Python `str.strip()`. -/
def pyStrip (s : String) : String := ⟨trimChars s.data⟩

/-- Python `str.lower()` (ASCII). -/
def pyLower (s : String) : String := ⟨s.data.map pyLowerC⟩

/-- Python `str.isupper()` on a whole string: at least one cased character
and every cased character uppercase (ASCII). -/
def pyIsUpperStr (cs : List Char) : Bool :=
  cs.any pyIsCased && cs.all (fun c => !pyIsCased c || pyIsUpperC c)

/-- Python `str.split()` (split on whitespace runs, dropping empty parts). -/
def splitWsAux (acc : List (List Char) × List Char) (c : Char) :
    List (List Char) × List Char :=
  if pyIsSpace c then
    (if acc.2 = [] then acc else (acc.1 ++ [acc.2.reverse], []))
  else (acc.1, c :: acc.2)

/-- Python `str.split()` on a character list. -/
def splitWs (cs : List Char) : List (List Char) :=
  let r := cs.foldl splitWsAux ([], [])
  if r.2 = [] then r.1 else r.1 ++ [r.2.reverse]

/-- `" ".join`: interleave a single space between token lists. -/
def joinSpace : List (List Char) → List Char
  | [] => []
  | [t] => t
  | t :: ts => t ++ ' ' :: joinSpace ts

/-- One decimal digit character (used to print numbers). -/
def digitC (n : Nat) : Char :=
  match n with
  | 0 => '0' | 1 => '1' | 2 => '2' | 3 => '3' | 4 => '4'
  | 5 => '5' | 6 => '6' | 7 => '7' | 8 => '8' | _ => '9'

/-- Decimal digits, most significant first; structural recursion on a
fuel bound (one division by ten per step, so `n + 1` steps always
suffice). -/
def natDigitsGo : Nat → Nat → List Char
  | 0, _ => []
  | fuel + 1, n =>
    if n < 10 then [digitC n]
    else natDigitsGo fuel (n / 10) ++ [digitC (n % 10)]

/-- Decimal digits of a natural number, most significant first
(Python `str(int)` for nonnegative ints). -/
def natDigits (n : Nat) : List Char := natDigitsGo (n + 1) n

/-- Python `str` of an integer. -/
def intRepr (i : Int) : List Char :=
  if i < 0 then '-' :: natDigits (-i).toNat else natDigits i.toNat

/-- Numeric value of a list of decimal digit characters (Python `int`). -/
def decDigits (cs : List Char) : Nat :=
  cs.foldl (fun n c => 10 * n + (c.toNat - 48)) 0

/-- Strip leading zeros of an integer-part digit string (Python float
canonicalization), keeping a single zero when nothing remains. -/
def stripLeadZeros (cs : List Char) : List Char :=
  if cs.dropWhile (· = '0') = [] then ['0'] else cs.dropWhile (· = '0')

/-- Strip trailing zeros of a fractional digit string, keeping a single
zero when nothing remains. -/
def stripTrailZeros (cs : List Char) : List Char :=
  if (cs.reverse.dropWhile (· = '0')).reverse = [] then ['0']
  else (cs.reverse.dropWhile (· = '0')).reverse

/-- Python `str(float(lit))` for a decimal literal `intpart.fracpart`:
canonical decimal form.  This agrees with CPython's shortest round-trip
float repr on the short literals handled by this program. -/
def floatRepr (cs : List Char) : List Char :=
  let ip := cs.takeWhile (· ≠ '.')
  let fp := (cs.drop (ip.length + 1)).takeWhile (· ≠ '.')
  stripLeadZeros ip ++ '.' :: stripTrailZeros fp

/-- Attribute values flowing through the merge engine: Python `None`,
non-finite floats (NaN or ±inf), strings, ints, finite floats (carried as
the decimal literal they were parsed from), and lists of values. -/
inductive Value where
  | vNone : Value
  | vNan : Value
  | vStr : String → Value
  | vInt : Int → Value
  | vFloat : String → Value
  | vList : List Value → Value

mutual

/-- Decidable equality of values (written by hand because the `vList`
constructor nests `List`). -/
def Value.decEq : (a b : Value) → Decidable (a = b)
  | .vNone, .vNone => isTrue rfl
  | .vNan, .vNan => isTrue rfl
  | .vStr a, .vStr b =>
    if h : a = b then isTrue (congrArg Value.vStr h)
    else isFalse (fun e => h (Value.vStr.inj e))
  | .vInt a, .vInt b =>
    if h : a = b then isTrue (congrArg Value.vInt h)
    else isFalse (fun e => h (Value.vInt.inj e))
  | .vFloat a, .vFloat b =>
    if h : a = b then isTrue (congrArg Value.vFloat h)
    else isFalse (fun e => h (Value.vFloat.inj e))
  | .vList xs, .vList ys =>
    match Value.decEqList xs ys with
    | isTrue h => isTrue (congrArg Value.vList h)
    | isFalse h => isFalse (fun e => h (Value.vList.inj e))
  | .vNone, .vNan => isFalse (fun h => Value.noConfusion h)
  | .vNone, .vStr _ => isFalse (fun h => Value.noConfusion h)
  | .vNone, .vInt _ => isFalse (fun h => Value.noConfusion h)
  | .vNone, .vFloat _ => isFalse (fun h => Value.noConfusion h)
  | .vNone, .vList _ => isFalse (fun h => Value.noConfusion h)
  | .vNan, .vNone => isFalse (fun h => Value.noConfusion h)
  | .vNan, .vStr _ => isFalse (fun h => Value.noConfusion h)
  | .vNan, .vInt _ => isFalse (fun h => Value.noConfusion h)
  | .vNan, .vFloat _ => isFalse (fun h => Value.noConfusion h)
  | .vNan, .vList _ => isFalse (fun h => Value.noConfusion h)
  | .vStr _, .vNone => isFalse (fun h => Value.noConfusion h)
  | .vStr _, .vNan => isFalse (fun h => Value.noConfusion h)
  | .vStr _, .vInt _ => isFalse (fun h => Value.noConfusion h)
  | .vStr _, .vFloat _ => isFalse (fun h => Value.noConfusion h)
  | .vStr _, .vList _ => isFalse (fun h => Value.noConfusion h)
  | .vInt _, .vNone => isFalse (fun h => Value.noConfusion h)
  | .vInt _, .vNan => isFalse (fun h => Value.noConfusion h)
  | .vInt _, .vStr _ => isFalse (fun h => Value.noConfusion h)
  | .vInt _, .vFloat _ => isFalse (fun h => Value.noConfusion h)
  | .vInt _, .vList _ => isFalse (fun h => Value.noConfusion h)
  | .vFloat _, .vNone => isFalse (fun h => Value.noConfusion h)
  | .vFloat _, .vNan => isFalse (fun h => Value.noConfusion h)
  | .vFloat _, .vStr _ => isFalse (fun h => Value.noConfusion h)
  | .vFloat _, .vInt _ => isFalse (fun h => Value.noConfusion h)
  | .vFloat _, .vList _ => isFalse (fun h => Value.noConfusion h)
  | .vList _, .vNone => isFalse (fun h => Value.noConfusion h)
  | .vList _, .vNan => isFalse (fun h => Value.noConfusion h)
  | .vList _, .vStr _ => isFalse (fun h => Value.noConfusion h)
  | .vList _, .vInt _ => isFalse (fun h => Value.noConfusion h)
  | .vList _, .vFloat _ => isFalse (fun h => Value.noConfusion h)

/-- Decidable equality of value lists. -/
def Value.decEqList : (xs ys : List Value) → Decidable (xs = ys)
  | [], [] => isTrue rfl
  | [], _ :: _ => isFalse (fun h => List.noConfusion h)
  | _ :: _, [] => isFalse (fun h => List.noConfusion h)
  | a :: as, b :: bs =>
    match Value.decEq a b, Value.decEqList as bs with
    | isTrue h1, isTrue h2 => isTrue (by rw [h1, h2])
    | isFalse h1, _ => isFalse (fun e => h1 (List.cons.inj e).1)
    | _, isFalse h2 => isFalse (fun e => h2 (List.cons.inj e).2)

end

instance : DecidableEq Value := Value.decEq

/-- Python `repr` of a scalar value (as it appears inside `str` of a list).
Only the fact that the result is nonempty and bracketed matters to the
merge logic; quote-escaping inside strings is not modelled. -/
def pyReprChars : Value → List Char
  | .vNone => ['N', 'o', 'n', 'e']
  | .vNan => ['n', 'a', 'n']
  | .vStr s => '\'' :: s.data ++ ['\'']
  | .vInt i => intRepr i
  | .vFloat m => floatRepr m.data
  | .vList _ => ['[', ']']

/-- `", ".join` of repr forms, for `str` of a Python list. -/
def commaSep : List (List Char) → List Char
  | [] => []
  | [t] => t
  | t :: ts => t ++ ',' :: ' ' :: commaSep ts

/-- Python `str()` of a value, as a character list. -/
def pyStrChars : Value → List Char
  | .vNone => ['N', 'o', 'n', 'e']
  | .vNan => ['n', 'a', 'n']
  | .vStr s => s.data
  | .vInt i => intRepr i
  | .vFloat m => floatRepr m.data
  | .vList xs => '[' :: commaSep (xs.map pyReprChars) ++ [']']

/-- Python `str()` of a value. -/
def pyStr (v : Value) : String := ⟨pyStrChars v⟩

/-- The stoplist of `is_meaningful` (source line 223). -/
def stopWords : List (List Char) :=
  [['n', 'a'], ['n', '/', 'a'], ['n', 'o', 'n', 'e'], ['n', 'u', 'l', 'l'],
   ['n', 'a', 'n']]

/-- `is_meaningful` (source lines 217-225): `None` and non-finite floats
are not meaningful; otherwise the stripped `str()` form must be nonempty
and its lowercase form must not be a stop word. -/
def is_meaningful : Value → Bool
  | .vNone => false
  | .vNan => false
  | v =>
    let s := trimChars (pyStrChars v)
    !(s = []) && !(stopWords.contains (s.map pyLowerC))

/-- The leading-number regex `^(\d+(?:\.\d+)?)` (source line 235): a
nonempty digit run, optionally followed by a dot and a nonempty digit run,
matched greedily at the start of the string. -/
def leadingNumber (st : List Char) : Option (List Char) :=
  let ds := st.takeWhile pyIsDigit
  if ds = [] then none
  else
    let rest := st.drop ds.length
    if rest.head? = some '.' then
      let fs := rest.tail.takeWhile pyIsDigit
      if fs = [] then some ds else some (ds ++ '.' :: fs)
    else some ds

/-- `maybe_cast_number` (source lines 227-244): on a string, strip it,
remove commas, and if a leading numeric pattern matches, return a float
when the match contains a dot and an int otherwise; all other inputs
(and unmatched strings) pass through unchanged. -/
def maybe_cast_number (v : Value) : Value :=
  match v with
  | .vStr s =>
    let st := (trimChars s.data).filter (· ≠ ',')
    match leadingNumber st with
    | some num =>
      if num.contains '.' then .vFloat ⟨num⟩ else .vInt (Int.ofNat (decDigits num))
    | none => .vStr s
  | v => v

/-- An attribute map: a Python dict in insertion order. -/
abbrev AttrMap := List (String × Value)

/-- First-match lookup (Python dict access on a nodup-key list). -/
def lookupA : List (String × α) → String → Option α
  | [], _ => none
  | p :: ps, k => if p.1 = k then some p.2 else lookupA ps k

/-- Pointwise update of the entry holding key `k`. -/
def updF (k : String) (v : Value) (p : String × Value) : String × Value :=
  if p.1 = k then (p.1, v) else p

/-- Python dict assignment `d[k] = v`: overwrite in place when the key
exists, append at the end when it is fresh. -/
def setKey (m : AttrMap) (k : String) (v : Value) : AttrMap :=
  if (lookupA m k).isSome then m.map (updF k v) else m ++ [(k, v)]

/-- The multi-valued field set (source line 255). -/
def list_fields : List String := ["ram", "storage", "colors", "price", "color"]

/-- View a stored value as a list (source line 271-272: wrap a scalar). -/
def valToList : Value → List Value
  | .vList xs => xs
  | v => [v]

/-- The comparison key of the dedup loop (source line 278):
`str(x).lower().strip()`. -/
def normKey (v : Value) : List Char :=
  trimChars ((pyStrChars v).map pyLowerC)

/-- Case-insensitive, whitespace-trim-insensitive equality used by the
list dedup loop. -/
def normEqB (a b : Value) : Bool := normKey a = normKey b

/-- One iteration of the merge loop of `merge_attributes`
(source lines 257-288) for a single incoming pair. -/
def mergeStep (ex : AttrMap) (kv : String × Value) : AttrMap :=
  if !is_meaningful kv.2 then ex
  else
    let nv := maybe_cast_number kv.2
    match lookupA ex kv.1 with
    | none => setKey ex kv.1 nv
    | some ev =>
      if !is_meaningful ev then setKey ex kv.1 nv
      else if kv.1 ∈ list_fields then
        let exList := valToList ev
        if exList.all (fun it => !normEqB nv it) then
          setKey ex kv.1 (.vList (exList ++ [nv]))
        else
          setKey ex kv.1 (.vList exList)
      else ex

/-- `merge_attributes` (source lines 246-288): fold the merge policy over
the incoming pairs in order. -/
def merge_attributes (ex inc : AttrMap) : AttrMap :=
  inc.foldl mergeStep ex

/-! ### Column canonicalization (source lines 29-150)

The fuzzy matcher is Python's `difflib.SequenceMatcher` with no junk
predicate; the autojunk heuristic only activates on strings of length at
least 200 and is therefore inert for every string this program compares,
so it is not modelled.  Scores are tracked as exact fractions; the
thresholds 0.85 / 0.90 become the exact comparisons 20n >= 17d / 10n >= 9d.
The concrete scores arising for the claims below are far from the
thresholds, so exact-rational and IEEE-float comparison agree. -/

/-- Collapse runs of spaces to a single space. -/
def collapseSpaces : List Char → Bool → List Char
  | [], _ => []
  | c :: cs, prev =>
    if c = ' ' then
      (if prev then collapseSpaces cs true else ' ' :: collapseSpaces cs true)
    else c :: collapseSpaces cs false

/-- `clean_colname` (source lines 29-36): strip, lowercase, replace
non-alphanumeric runs by single spaces, collapse whitespace, strip. -/
def clean_colname (s : String) : String :=
  let cs := (trimChars s.data).map pyLowerC
  let cs := cs.map (fun c => if pyIsLowerC c || pyIsDigit c then c else ' ')
  ⟨trimChars (collapseSpaces cs false)⟩

/-- Indices at which character `c` occurs in `b` (difflib's `b2j`),
in ascending order. -/
def b2jIndices (b : List Char) (c : Char) : List Nat :=
  (List.range b.length).filter (fun j => b.get? j == some c)

/-- Lookup in the `j2len` map of `find_longest_match`, defaulting to 0. -/
def lookupLen (l : List (Nat × Nat)) (j : Nat) : Nat :=
  match l.find? (fun p => p.1 == j) with
  | some p => p.2
  | none => 0

/-- State of the `find_longest_match` scan:
(new `j2len` being built, best i, best j, best size). -/
abbrev FlmSt := List (Nat × Nat) × Nat × Nat × Nat

/-- Inner loop of `find_longest_match` over the occurrence indices `j`
of `a[i]` in `b`. -/
def flmInner (j2len : List (Nat × Nat)) (i : Nat) (st : FlmSt) (j : Nat) :
    FlmSt :=
  let k := (if j = 0 then 0 else lookupLen j2len (j - 1)) + 1
  let new := (j, k) :: st.1
  if st.2.2.2 < k then (new, i + 1 - k, j + 1 - k, k)
  else (new, st.2)

/-- `difflib.SequenceMatcher.find_longest_match` restricted to
`a[alo:ahi]` and `b[blo:bhi]`, with no junk (the extension passes of the
original are no-ops when nothing is junk).  Returns (i, j, size). -/
def findLongestMatch (a b : List Char) (alo ahi blo bhi : Nat) :
    Nat × Nat × Nat :=
  let step := fun (acc : List (Nat × Nat) × Nat × Nat × Nat) (i : Nat) =>
    let js := match a.get? i with
      | some c => (b2jIndices b c).filter (fun j => blo ≤ j && j < bhi)
      | none => []
    let r := js.foldl (flmInner acc.1 i) ([], acc.2)
    r
  let r := (List.range' alo (ahi - alo)).foldl step ([], alo, blo, 0)
  r.2

/-- Total size of all matching blocks of `difflib`'s
Ratcliff-Obershelp recursion: take the longest match, recurse on both
sides.  `fuel` bounds the recursion depth; every level shrinks the `a`
range strictly, so `a.length + 1` fuel is always sufficient. -/
def matchTotal (a b : List Char) : Nat → Nat → Nat → Nat → Nat → Nat
  | 0, _, _, _, _ => 0
  | fuel + 1, alo, ahi, blo, bhi =>
    let r := findLongestMatch a b alo ahi blo bhi
    if r.2.2 = 0 then 0
    else
      r.2.2 + matchTotal a b fuel alo r.1 blo r.2.1 +
        matchTotal a b fuel (r.1 + r.2.2) ahi (r.2.1 + r.2.2) bhi

/-- Total number of matched characters between `a` and `b`. -/
def matchSize (a b : List Char) : Nat :=
  matchTotal a b (a.length + 1) 0 a.length 0 b.length

/-- `SequenceMatcher.ratio()` as an exact fraction `2M / (|a|+|b|)`
(1 when both strings are empty, as in difflib). -/
def ratioFrac (a b : List Char) : Nat × Nat :=
  let L := a.length + b.length
  if L = 0 then (1, 1) else (2 * matchSize a b, L)

/-- `sim_ratio` (source lines 41-42) as an exact fraction: the difflib
ratio of the cleaned forms. -/
def simFrac (a b : String) : Nat × Nat :=
  ratioFrac (clean_colname a).data (clean_colname b).data

/-- `token_set` (source lines 38-39): distinct whitespace tokens of the
cleaned form. -/
def token_set (s : String) : List (List Char) :=
  (splitWs (clean_colname s).data).dedup

/-- Size of the intersection of the two token sets. -/
def tokOverlap (a b : String) : Nat :=
  ((token_set a).filter (· ∈ token_set b)).length

/-- Stage-2 score of `best_canonical` (source lines 128-132):
ratio plus `0.05 ×` token overlap, as an exact fraction. -/
def scoreFrac (cleaned al : String) : Nat × Nat :=
  let r := simFrac cleaned al
  let k := tokOverlap cleaned al
  (20 * r.1 + k * r.2, 20 * r.2)

/-- The flattened alias table `ALIAS_TO_CANON` (source lines 45-105):
cleaned alias form to canonical key, in the literal order of the
`CANONICAL_KEYS` entries of the source.  (Python iterates each alias set
in unspecified hash order; the order affects only tie-breaking between
equal scores, which none of the verified claims exercises.) -/
def aliasToCanon : List (String × String) :=
 [("brand", "brand"),
  ("brand name", "brand"),
  ("manufacturer", "brand"),
  ("company", "brand"),
  ("model", "model"),
  ("model name", "model"),
  ("phone model", "model"),
  ("device", "model"),
  ("device name", "model"),
  ("product name", "model"),
  ("name", "model"),
  ("title", "model"),
  ("variant", "variant"),
  ("version", "variant"),
  ("trim", "variant"),
  ("price", "price"),
  ("price inr", "price"),
  ("price rupee", "price"),
  ("price rs", "price"),
  ("current price", "price"),
  ("discount price", "price"),
  ("mrp", "mrp"),
  ("list price", "mrp"),
  ("original price", "mrp"),
  ("rating", "rating"),
  ("ratings", "rating"),
  ("avg rating", "rating"),
  ("review count", "review_count"),
  ("num reviews", "review_count"),
  ("ratings count", "review_count"),
  ("reviews count", "review_count"),
  ("chipset", "chipset"),
  ("soc", "chipset"),
  ("processor", "chipset"),
  ("processor model", "chipset"),
  ("cpu", "cpu"),
  ("processor name", "cpu"),
  ("cpu model", "cpu"),
  ("gpu", "gpu"),
  ("graphics", "gpu"),
  ("ram", "ram"),
  ("memory ram", "ram"),
  ("ram gb", "ram"),
  ("ram size", "ram"),
  ("storage", "storage"),
  ("rom", "storage"),
  ("internal storage", "storage"),
  ("memory storage", "storage"),
  ("storage gb", "storage"),
  ("display", "display_size"),
  ("display size", "display_size"),
  ("screen size", "display_size"),
  ("screen", "display_size"),
  ("display type", "display_type"),
  ("panel type", "display_type"),
  ("refresh rate", "refresh_rate"),
  ("screen refresh rate", "refresh_rate"),
  ("resolution", "resolution"),
  ("screen resolution", "resolution"),
  ("rear camera", "camera_main"),
  ("main camera", "camera_main"),
  ("primary camera", "camera_main"),
  ("camera", "camera_main"),
  ("rear cam", "camera_main"),
  ("front camera", "camera_front"),
  ("selfie camera", "camera_front"),
  ("secondary camera", "camera_front"),
  ("battery", "battery_capacity"),
  ("battery capacity", "battery_capacity"),
  ("battery mah", "battery_capacity"),
  ("charging", "charging"),
  ("fast charging", "charging"),
  ("charging speed", "charging"),
  ("charger watt", "charging"),
  ("charging watt", "charging"),
  ("os", "os"),
  ("operating system", "os"),
  ("android version", "os"),
  ("ios version", "os"),
  ("software", "os"),
  ("network", "network"),
  ("network technology", "network"),
  ("connectivity", "network"),
  ("sim", "sim"),
  ("sim type", "sim"),
  ("sim slots", "sim"),
  ("nfc", "nfc"),
  ("wifi", "wifi"),
  ("wi fi", "wifi"),
  ("bluetooth", "bluetooth"),
  ("dimensions", "dimensions"),
  ("size", "dimensions"),
  ("weight", "weight"),
  ("colors", "colors"),
  ("colour", "colors"),
  ("color", "colors"),
  ("release date", "release_date"),
  ("launch date", "release_date"),
  ("announced", "release_date"),
  ("image url", "image_url"),
  ("img url", "image_url"),
  ("image", "image_url"),
  ("thumbnail", "image_url"),
  ("usb", "usb"),
  ("usb type", "usb"),
  ("usb port", "usb"),
  ("sensors", "sensors"),
  ("sensor list", "sensors"),
  ("warranty", "warranty"),
  ("seller", "seller"),
  ("seller name", "seller"),
  ("store", "seller"),
  ("url", "url"),
  ("product url", "url"),
  ("link", "url")]

/-- The canonical key names, in the literal order of `CANONICAL_KEYS`. -/
def canonNames : List String :=
 ["brand", "model", "variant", "price", "mrp", "rating", "review_count",
  "chipset", "cpu", "gpu", "ram", "storage", "display_size", "display_type",
  "refresh_rate", "resolution", "camera_main", "camera_front",
  "battery_capacity", "charging", "os", "network", "sim", "nfc", "wifi",
  "bluetooth", "dimensions", "weight", "colors", "release_date", "image_url",
  "usb", "sensors", "warranty", "seller", "url"]

/-- Running-best update of the fuzzy scan: replace the best candidate
exactly when the new score is strictly greater (exact fraction
comparison by cross-multiplication). -/
def betterScore (acc : Option String × Nat × Nat) (cand : String)
    (sc : Nat × Nat) : Option String × Nat × Nat :=
  if acc.2.1 * sc.2 < sc.1 * acc.2.2 then (some cand, sc) else acc

/-- `best_canonical` (source lines 111-150): direct alias hit, then fuzzy
scan over all aliases with token-overlap bonus at threshold 0.85, then
fuzzy scan over the canonical key names (continuing with the same running
best) at threshold 0.90, else no match. -/
def best_canonical (colname : String) : Option String :=
  if colname = "" then none
  else
    let cleaned := clean_colname colname
    match lookupA aliasToCanon cleaned with
    | some c => some c
    | none =>
      let st := aliasToCanon.foldl
        (fun acc p => betterScore acc p.2 (scoreFrac cleaned p.1))
        ((none : Option String), 0, 1)
      if st.1.isSome && 20 * st.2.1 ≥ 17 * st.2.2 then st.1
      else
        let st2 := canonNames.foldl
          (fun acc c => betterScore acc c (simFrac cleaned c)) st
        if st2.1.isSome && 10 * st2.2.1 ≥ 9 * st2.2.2 then st2.1 else none

/-! ### Entity key extraction (source lines 175-189, 291-317) -/

/-- `split_brand_from_model` (source lines 175-189): tokenize by
whitespace; when there are at least two tokens and the first starts with
an uppercase letter (or is fully uppercase) and has length in [2, 12],
it becomes the brand and the space-joined remainder the model. -/
def split_brand_from_model (mv : String) : Option String × String :=
  if mv = "" then (none, mv)
  else
    match splitWs (trimChars mv.data) with
    | [] => (none, mv)
    | [_] => (none, mv)
    | t0 :: rest =>
      match t0 with
      | [] => (none, mv)
      | c :: _ =>
        if (pyIsUpperC c || pyIsUpperStr t0) && (2 ≤ t0.length && t0.length ≤ 12)
        then (some ⟨t0⟩, ⟨trimChars (joinSpace rest)⟩)
        else (none, mv)

/-- `row.get(col, "")` for a row modelled as a dict in column order. -/
def getRow (row : List (String × Value)) (c : String) : Value :=
  match lookupA row c with
  | some v => v
  | none => .vStr ""

/-- `row_to_attributes` (source lines 291-317): resolve the brand/model
strings (with the split heuristic when brand is not meaningful), reject
the row when either stays not meaningful, and canonicalize every other
column into the incoming attribute map (fallback key
`attr_<cleaned name>`). -/
def row_to_attributes (row : List (String × Value))
    (brandCol modelCol : Option String) :
    Option String × Option String × AttrMap :=
  let brand0 := match brandCol with
    | some bc => pyStrip (pyStr (getRow row bc))
    | none => ""
  let model0 := match modelCol with
    | some mc => pyStrip (pyStr (getRow row mc))
    | none => ""
  let bm :=
    if !is_meaningful (.vStr brand0) && is_meaningful (.vStr model0) then
      match split_brand_from_model model0 with
      | (some g, nm) => (g, nm)
      | (none, _) => (brand0, model0)
    else (brand0, model0)
  if !is_meaningful (.vStr bm.1) || !is_meaningful (.vStr bm.2) then
    (none, none, [])
  else
    let attrs := row.foldl
      (fun (acc : AttrMap) p =>
        if some p.1 = brandCol || some p.1 = modelCol then acc
        else
          let canon := match best_canonical p.1 with
            | some c => c
            | none => "attr_" ++ clean_colname p.1
          setKey acc canon p.2)
      []
    (some bm.1, some bm.2, attrs)

/-! ### Identifier generation (source lines 192-197)

`stable_phone_id` is `uuid.uuid5(uuid.NAMESPACE_URL, base)` for
`base = brand.strip().lower() + "|" + model.strip().lower()`; version-5
UUIDs are the SHA-1 digest of namespace bytes plus the UTF-8 name bytes,
with version/variant bits forced.  SHA-1 is implemented below over byte
lists, words as naturals reduced mod 2^32. -/

/-- UTF-8 encoding of a character list as a byte list. -/
def utf8Encode (cs : List Char) : List Nat :=
  cs.foldr
    (fun c acc =>
      let u := c.toNat
      (if u < 128 then [u]
       else if u < 2048 then [192 + u / 64, 128 + u % 64]
       else if u < 65536 then
         [224 + u / 4096, 128 + (u / 64) % 64, 128 + u % 64]
       else
         [240 + u / 262144, 128 + (u / 4096) % 64, 128 + (u / 64) % 64,
          128 + u % 64]) ++ acc)
    []

/-- Reduce to a 32-bit word. -/
def w32 (n : Nat) : Nat := n % 4294967296

/-- Left-rotation of a 32-bit word. -/
def rotl (s x : Nat) : Nat := w32 (x * 2 ^ s) + x / 2 ^ (32 - s)

/-- `k` bytes of `n`, big-endian. -/
def beBytes : Nat → Nat → List Nat
  | 0, _ => []
  | k + 1, n => beBytes k (n / 256) ++ [n % 256]

/-- Split a byte list into 64-byte chunks (structural recursion on a
fuel bound: each step consumes at least one element). -/
def chunk64Go : Nat → List Nat → List (List Nat)
  | 0, _ => []
  | fuel + 1, l =>
    if l = [] then [] else l.take 64 :: chunk64Go fuel (l.drop 64)

/-- Split a byte list into 64-byte chunks. -/
def chunk64 (l : List Nat) : List (List Nat) := chunk64Go l.length l

/-- SHA-1 message padding: append 0x80, zero bytes to 56 mod 64, and the
64-bit big-endian bit length. -/
def sha1pad (msg : List Nat) : List Nat :=
  msg ++ 128 :: List.replicate ((119 - msg.length % 64) % 64) 0 ++
    beBytes 8 (8 * msg.length)

/-- Pack bytes into 32-bit big-endian words. -/
def words16 : List Nat → List Nat
  | b0 :: b1 :: b2 :: b3 :: rest =>
    (((b0 * 256 + b1) * 256 + b2) * 256 + b3) :: words16 rest
  | _ => []

/-- Extend 16 words to the 80-word SHA-1 schedule. -/
def extendWords (ws : List Nat) : List Nat :=
  (List.range' 16 64).foldl
    (fun acc i =>
      acc ++ [rotl 1 ((acc.getD (i - 3) 0 ^^^ acc.getD (i - 8) 0) ^^^
        (acc.getD (i - 14) 0 ^^^ acc.getD (i - 16) 0))])
    ws

/-- SHA-1 round function (bitwise complement written as subtraction from
the all-ones word; the state words stay below 2^32). -/
def sha1F (i b c d : Nat) : Nat :=
  if i < 20 then (b &&& c) ||| ((4294967295 - b) &&& d)
  else if i < 40 then (b ^^^ c) ^^^ d
  else if i < 60 then ((b &&& c) ||| (b &&& d)) ||| (c &&& d)
  else (b ^^^ c) ^^^ d

/-- SHA-1 round constants. -/
def sha1K (i : Nat) : Nat :=
  if i < 20 then 1518500249
  else if i < 40 then 1859775393
  else if i < 60 then 2400959708
  else 3395469782

/-- SHA-1 state: five 32-bit words. -/
abbrev Sha1St := Nat × Nat × Nat × Nat × Nat

/-- SHA-1 compression of one 64-byte chunk. -/
def sha1Compress (h : Sha1St) (chunk : List Nat) : Sha1St :=
  let ws := extendWords (words16 chunk)
  let st := (List.range 80).foldl
    (fun (st : Sha1St) i =>
      let temp := w32 (rotl 5 st.1 + sha1F i st.2.1 st.2.2.1 st.2.2.2.1 +
        st.2.2.2.2 + sha1K i + ws.getD i 0)
      (temp, st.1, rotl 30 st.2.1, st.2.2.1, st.2.2.2.1))
    h
  (w32 (h.1 + st.1), w32 (h.2.1 + st.2.1), w32 (h.2.2.1 + st.2.2.1),
   w32 (h.2.2.2.1 + st.2.2.2.1), w32 (h.2.2.2.2 + st.2.2.2.2))

/-- SHA-1 digest (20 bytes) of a byte list. -/
def sha1 (msg : List Nat) : List Nat :=
  let r := (chunk64 (sha1pad msg)).foldl sha1Compress
    (1732584193, 4023233417, 2562383102, 271733878, 3285377520)
  beBytes 4 r.1 ++ beBytes 4 r.2.1 ++ beBytes 4 r.2.2.1 ++
    beBytes 4 r.2.2.2.1 ++ beBytes 4 r.2.2.2.2

/-- The 16 bytes of `uuid.NAMESPACE_URL`
(6ba7b811-9dad-11d1-80b4-00c04fd430c8). -/
def namespaceURL : List Nat :=
  [0x6b, 0xa7, 0xb8, 0x11, 0x9d, 0xad, 0x11, 0xd1,
   0x80, 0xb4, 0x00, 0xc0, 0x4f, 0xd4, 0x30, 0xc8]

/-- Lowercase hex digit. -/
def hexDigit (n : Nat) : Char :=
  match n with
  | 0 => '0' | 1 => '1' | 2 => '2' | 3 => '3' | 4 => '4' | 5 => '5'
  | 6 => '6' | 7 => '7' | 8 => '8' | 9 => '9' | 10 => 'a' | 11 => 'b'
  | 12 => 'c' | 13 => 'd' | 14 => 'e' | _ => 'f'

/-- Two hex digits of a byte. -/
def byteHex (b : Nat) : List Char := [hexDigit (b / 16), hexDigit (b % 16)]

/-- Standard 8-4-4-4-12 UUID string of 16 bytes. -/
def uuidFormat (bs : List Nat) : String :=
  let hx := bs.foldr (fun b acc => byteHex b ++ acc) []
  ⟨hx.take 8 ++ '-' :: ((hx.drop 8).take 4 ++ '-' ::
    ((hx.drop 12).take 4 ++ '-' :: ((hx.drop 16).take 4 ++ '-' ::
      hx.drop 20)))⟩

/-- Version-5 UUID of a name under a namespace: SHA-1 of namespace bytes
plus name bytes, with the version nibble forced to 5 and the variant bits
to 10. -/
def uuid5 (ns nameBytes : List Nat) : String :=
  let d := sha1 (ns ++ nameBytes)
  let bs := d.take 16
  let b6 := (bs.getD 6 0 &&& 15) ||| 80
  let b8 := (bs.getD 8 0 &&& 63) ||| 128
  uuidFormat (bs.take 6 ++ b6 :: bs.getD 7 0 :: b8 :: bs.drop 9)

/-- `stable_phone_id` (source lines 192-197): deterministic UUID5 over
the normalized string `brand.strip().lower() + "|" + model.strip().lower()`
under the URL namespace. -/
def stable_phone_id (brand model : String) : String :=
  uuid5 namespaceURL
    (utf8Encode ((pyLower (pyStrip brand)).data ++ '|' ::
      (pyLower (pyStrip model)).data))

/-! ### Partitioned store (source lines 200-214, 356-374) -/

/-- An entity of the per-brand store. -/
structure Phone where
  id : String
  brand : String
  model : String
  attributes : AttrMap
deriving DecidableEq

/-- A per-brand partition document: `{brand, phones: id -> phone}`. -/
structure BrandDB where
  brand : String
  phones : List (String × Phone)
deriving DecidableEq

/-- The per-row upsert of `process_csv_file` (source lines 356-374):
initialize the entity on first encounter of its id, then merge the
incoming attributes into its attribute map. -/
def upsert (db : BrandDB) (brand model : String) (attrs : AttrMap) :
    BrandDB :=
  let pid := stable_phone_id brand model
  let phones :=
    if (lookupA db.phones pid).isSome then db.phones
    else db.phones ++ [(pid, ⟨pid, brand, model, []⟩)]
  { db with
    phones := phones.map (fun p =>
      if p.1 = pid then
        (p.1, { p.2 with attributes := merge_attributes p.2.attributes attrs })
      else p) }

/-! ### Batch orchestration, read phase (source lines 320-331, 393-395)

Exceptions are modelled with `Except`: `.error` is an uncaught Python
exception propagating out of `process_csv_file`.  The decisive point of
the control flow is that the Latin-1 retry (line 324) runs inside the
`except UnicodeDecodeError` handler, so an exception raised by the retry
is not caught by the sibling `except Exception` clause (Python only
matches the clauses of a `try` against exceptions raised in its `try`
body), and `main`'s file loop (lines 393-395) has no handler of its own. -/

/-- A Python exception class raised by a table read:
`UnicodeDecodeError` or anything else (parser errors, I/O errors, ...). -/
inductive PdErr where
  | unicodeDecodeError : PdErr
  | otherError : String → PdErr
deriving DecidableEq

/-- Outcome of one attempted table read. -/
inductive ReadRes where
  | ok : Nat → ReadRes
  | raise : PdErr → ReadRes
deriving DecidableEq

/-- A CSV file, abstracted to how each decode attempt would end
(`ok n` = a table with `n` data rows). -/
structure CsvFile where
  utf8Read : ReadRes
  latin1Read : ReadRes
deriving DecidableEq

/-- What `process_csv_file` reports for one file. -/
inductive FileOutcome where
  | skippedReadError : FileOutcome
  | skippedEmpty : FileOutcome
  | processedRows : Nat → FileOutcome
deriving DecidableEq

/-- The read phase of `process_csv_file` (source lines 320-331). -/
def readPhase (f : CsvFile) : Except PdErr FileOutcome :=
  match f.utf8Read with
  | .ok n => if n = 0 then .ok .skippedEmpty else .ok (.processedRows n)
  | .raise .unicodeDecodeError =>
    match f.latin1Read with
    | .ok n => if n = 0 then .ok .skippedEmpty else .ok (.processedRows n)
    | .raise e => .error e
  | .raise (.otherError _) => .ok .skippedReadError

/-- `main`'s file loop (source lines 393-395): process files in order
with no exception handler; an uncaught exception aborts the batch,
leaving the remaining files unprocessed. -/
def runBatch : List CsvFile → List FileOutcome × Option PdErr
  | [] => ([], none)
  | f :: fs =>
    match readPhase f with
    | .ok o => ((o :: (runBatch fs).1, (runBatch fs).2))
    | .error e => ([], some e)

/-! ### Auxiliary predicates used by the theorems -/

/-- The keys of an association-list dict. -/
def keysOf (m : List (String × α)) : List String := m.map Prod.fst

/-- A well-formed Python dict: no duplicate keys. -/
def NodupKeys (m : List (String × α)) : Prop := (keysOf m).Nodup

/-- Is a value a Python list? -/
def isListV : Value → Bool
  | .vList _ => true
  | _ => false

/-- Every value of the map is a scalar (as in any row-derived incoming
attribute map: CSV cells are never lists). -/
def scalarValues (m : AttrMap) : Prop := ∀ p ∈ m, isListV p.2 = false

instance nodupKeysDec (m : List (String × α)) : Decidable (NodupKeys m) :=
  inferInstanceAs (Decidable (keysOf m).Nodup)

instance scalarValuesDec (m : AttrMap) : Decidable (scalarValues m) :=
  inferInstanceAs (Decidable (∀ p ∈ m, isListV p.2 = false))

/-- Does the incoming map meaningfully set key `k`? -/
def wrapCond (inc : AttrMap) (k : String) : Bool :=
  match lookupA inc k with
  | some w => is_meaningful w
  | none => false

/-- Wrap one stored entry when it is a scalar under a multi-valued key
that the incoming map meaningfully sets. -/
def wrapEntry (inc : AttrMap) (q : String × Value) : String × Value :=
  if decide (q.1 ∈ list_fields) && !isListV q.2 && wrapCond inc q.1 then
    (q.1, Value.vList [q.2])
  else q

/-- Normalization of a once-merged map by a repeated merge of the same
incoming map: a multi-valued key whose stored value is still a scalar and
which the incoming map meaningfully sets gets wrapped into a one-element
list; everything else is untouched. -/
def applyWrap (inc M : AttrMap) : AttrMap :=
  M.map (wrapEntry inc)

/-- After a first merge of `(k, v)` the map is stable for that pair: `k`
holds a meaningful value which, for a multi-valued key, already contains a
normalized match for the normalized incoming value. -/
def Stable (M : AttrMap) (k : String) (v : Value) : Prop :=
  ∃ m, lookupA M k = some m ∧ is_meaningful m = true ∧
    (k ∈ list_fields →
      ∃ x ∈ valToList m, normEqB (maybe_cast_number v) x = true)

/-- Pairwise distinctness under the case-insensitive,
whitespace-trim-insensitive comparison key of the merge dedup loop. -/
def pairwiseNormDistinct (xs : List Value) : Prop :=
  xs.Pairwise (fun a b => normKey a ≠ normKey b)

/-- The multi-valued-field invariant: every stored value under a
multi-valued key, viewed as a list, has pairwise distinct entries under
the normalized comparison. -/
def listInv (M : AttrMap) : Prop :=
  ∀ p ∈ M, p.1 ∈ list_fields → pairwiseNormDistinct (valToList p.2)

instance pairwiseNormDistinctDec (xs : List Value) :
    Decidable (pairwiseNormDistinct xs) :=
  inferInstanceAs (Decidable (xs.Pairwise (fun a b => normKey a ≠ normKey b)))

instance listInvDec (M : AttrMap) : Decidable (listInv M) :=
  inferInstanceAs
    (Decidable (∀ p ∈ M, p.1 ∈ list_fields → pairwiseNormDistinct (valToList p.2)))

/-- The spec's `normalize` for identifier generation: trim then
lowercase. -/
def specNormalize (s : String) : String := pyLower (pyStrip s)

/-! ## Lemmas: association-list dictionaries -/

theorem keysOf_cons (p : String × α) (ps : List (String × α)) :
    keysOf (p :: ps) = p.1 :: keysOf ps := rfl

theorem lookupA_cons (p : String × α) (ps : List (String × α)) (k : String) :
    lookupA (p :: ps) k = if p.1 = k then some p.2 else lookupA ps k := rfl

theorem mem_keysOf_of_mem {m : List (String × α)} {p : String × α}
    (h : p ∈ m) : p.1 ∈ keysOf m :=
  List.mem_map_of_mem Prod.fst h

theorem nodupKeys_cons_iff {p : String × α} {ps : List (String × α)} :
    NodupKeys (p :: ps) ↔ p.1 ∉ keysOf ps ∧ NodupKeys ps := by
  unfold NodupKeys
  rw [keysOf_cons, List.nodup_cons]

theorem lookupA_eq_none_iff {m : List (String × α)} {k : String} :
    lookupA m k = none ↔ k ∉ keysOf m := by
  induction m with
  | nil => simp [lookupA, keysOf]
  | cons p ps ih =>
    rw [keysOf_cons, List.mem_cons]
    by_cases h : p.1 = k
    · simp [lookupA, h]
    · rw [lookupA, if_neg h, ih]
      constructor
      · rintro hk (he | hm)
        · exact h he.symm
        · exact hk hm
      · intro hnk hm
        exact hnk (Or.inr hm)

theorem lookupA_isSome_iff {m : List (String × α)} {k : String} :
    (lookupA m k).isSome ↔ k ∈ keysOf m := by
  rw [Option.isSome_iff_ne_none, Ne, lookupA_eq_none_iff, not_not]

theorem lookupA_append (m l : List (String × α)) (k : String) :
    lookupA (m ++ l) k =
      match lookupA m k with
      | some v => some v
      | none => lookupA l k := by
  induction m with
  | nil => simp [lookupA]
  | cons p ps ih =>
    by_cases h : p.1 = k <;> simp [lookupA, h, ih]

theorem lookupA_map_updF_self {m : AttrMap} {k : String} (v : Value)
    (h : k ∈ keysOf m) : lookupA (m.map (updF k v)) k = some v := by
  induction m with
  | nil => simp [keysOf] at h
  | cons p ps ih =>
    by_cases hp : p.1 = k
    · simp [lookupA, updF, hp]
    · rw [keysOf_cons, List.mem_cons] at h
      rcases h with h | h
      · exact absurd h.symm hp
      · simp [lookupA, updF, hp]
        exact ih h

theorem lookupA_map_updF_ne (m : AttrMap) {k k' : String} (v : Value)
    (h : k' ≠ k) : lookupA (m.map (updF k v)) k' = lookupA m k' := by
  induction m with
  | nil => simp [lookupA]
  | cons p ps ih =>
    by_cases hp : p.1 = k
    · rw [List.map_cons, lookupA, show updF k v p = (p.1, v) by simp [updF, hp],
        lookupA, if_neg (hp ▸ fun he => h he.symm : ¬p.1 = k'),
        if_neg (hp ▸ fun he => h he.symm : ¬p.1 = k')]
      exact ih
    · rw [List.map_cons, lookupA, show updF k v p = p by simp [updF, hp], lookupA]
      by_cases hp' : p.1 = k' <;> simp [hp', ih]

theorem map_updF_of_not_mem {m : AttrMap} {k : String} (v : Value)
    (h : k ∉ keysOf m) : m.map (updF k v) = m := by
  conv_rhs => rw [← List.map_id m]
  apply List.map_congr_left
  intro p hp
  have : p.1 ≠ k := fun he => h (he ▸ mem_keysOf_of_mem hp)
  simp [updF, this]

theorem lookupA_setKey_self (m : AttrMap) (k : String) (v : Value) :
    lookupA (setKey m k v) k = some v := by
  unfold setKey
  by_cases h : (lookupA m k).isSome
  · rw [if_pos h]
    exact lookupA_map_updF_self v (lookupA_isSome_iff.mp h)
  · rw [if_neg h, lookupA_append]
    have : lookupA m k = none :=
      lookupA_eq_none_iff.mpr (fun hm => h (lookupA_isSome_iff.mpr hm))
    simp [this, lookupA]

theorem lookupA_setKey_ne (m : AttrMap) {k k' : String} (v : Value)
    (h : k' ≠ k) : lookupA (setKey m k v) k' = lookupA m k' := by
  unfold setKey
  by_cases hs : (lookupA m k).isSome
  · rw [if_pos hs]
    exact lookupA_map_updF_ne m v h
  · rw [if_neg hs, lookupA_append]
    cases hl : lookupA m k' with
    | some w => rfl
    | none => simp [lookupA, Ne.symm h]

theorem keysOf_setKey_of_mem {m : AttrMap} {k : String} (v : Value)
    (h : k ∈ keysOf m) : keysOf (setKey m k v) = keysOf m := by
  unfold setKey
  rw [if_pos (lookupA_isSome_iff.mpr h)]
  unfold keysOf
  rw [List.map_map]
  apply List.map_congr_left
  intro p _
  by_cases hp : p.1 = k <;> simp [updF, hp]

theorem keysOf_setKey_of_not_mem {m : AttrMap} {k : String} (v : Value)
    (h : k ∉ keysOf m) : keysOf (setKey m k v) = keysOf m ++ [k] := by
  unfold setKey
  rw [if_neg (fun hs => h (lookupA_isSome_iff.mp hs))]
  simp [keysOf]

theorem nodupKeys_setKey {m : AttrMap} (k : String) (v : Value)
    (h : NodupKeys m) : NodupKeys (setKey m k v) := by
  by_cases hk : k ∈ keysOf m
  · unfold NodupKeys
    rw [keysOf_setKey_of_mem v hk]
    exact h
  · unfold NodupKeys
    rw [keysOf_setKey_of_not_mem v hk]
    refine List.Nodup.append h (by simp) ?_
    intro a ha hb
    rw [List.mem_singleton] at hb
    exact hk (hb ▸ ha)

theorem lookupA_of_mem {m : List (String × α)} (hn : NodupKeys m)
    {p : String × α} (h : p ∈ m) : lookupA m p.1 = some p.2 := by
  induction m with
  | nil => cases h
  | cons q qs ih =>
    rcases List.mem_cons.mp h with rfl | h
    · simp [lookupA]
    · have hq : q.1 ≠ p.1 := by
        intro he
        exact (nodupKeys_cons_iff.mp hn).1 (he ▸ mem_keysOf_of_mem h)
      rw [lookupA, if_neg hq]
      exact ih (nodupKeys_cons_iff.mp hn).2 h

theorem setKey_eq_self {m : AttrMap} {k : String} {v : Value}
    (hn : NodupKeys m) (h : lookupA m k = some v) : setKey m k v = m := by
  unfold setKey
  rw [if_pos (by simp [h])]
  induction m with
  | nil => cases h
  | cons p ps ih =>
    by_cases hp : p.1 = k
    · rw [lookupA, if_pos hp] at h
      have hkps : k ∉ keysOf ps := hp ▸ (nodupKeys_cons_iff.mp hn).1
      have h2 : v = p.2 := by injection h with h2; exact h2.symm
      rw [List.map_cons, map_updF_of_not_mem v hkps,
        show updF k v p = p by cases p; simp_all [updF]]
    · rw [lookupA, if_neg hp] at h
      rw [List.map_cons, show updF k v p = p by simp [updF, hp],
        ih (nodupKeys_cons_iff.mp hn).2 h]

/-! ## Lemmas: shape of one merge step -/

theorem mergeStep_shape (ex : AttrMap) (kv : String × Value) :
    mergeStep ex kv = ex ∨ ∃ v, mergeStep ex kv = setKey ex kv.1 v := by
  unfold mergeStep
  by_cases h1 : is_meaningful kv.2
  · rw [if_neg (by simp [h1])]
    cases hl : lookupA ex kv.1 with
    | none => exact Or.inr ⟨_, rfl⟩
    | some ev =>
      dsimp only
      by_cases h2 : is_meaningful ev
      · rw [if_neg (by simp [h2])]
        by_cases h3 : kv.1 ∈ list_fields
        · rw [if_pos h3]
          split
          · exact Or.inr ⟨_, rfl⟩
          · exact Or.inr ⟨_, rfl⟩
        · rw [if_neg h3]
          exact Or.inl rfl
      · rw [if_pos (by simp [h2])]
        exact Or.inr ⟨_, rfl⟩
  · rw [if_pos (by simp [h1])]
    exact Or.inl rfl

theorem mergeStep_lookup_ne {ex : AttrMap} {kv : String × Value}
    {k' : String} (h : k' ≠ kv.1) :
    lookupA (mergeStep ex kv) k' = lookupA ex k' := by
  rcases mergeStep_shape ex kv with he | ⟨v, he⟩ <;> rw [he]
  exact lookupA_setKey_ne ex v h

theorem nodupKeys_mergeStep {ex : AttrMap} (kv : String × Value)
    (h : NodupKeys ex) : NodupKeys (mergeStep ex kv) := by
  rcases mergeStep_shape ex kv with he | ⟨v, he⟩ <;> rw [he]
  · exact h
  · exact nodupKeys_setKey _ _ h

theorem lookupA_foldl_not_mem {inc ex : AttrMap} {k : String}
    (h : k ∉ keysOf inc) :
    lookupA (inc.foldl mergeStep ex) k = lookupA ex k := by
  induction inc generalizing ex with
  | nil => rfl
  | cons kv inc ih =>
    rw [keysOf_cons, List.mem_cons] at h
    push_neg at h
    rw [List.foldl_cons, ih h.2, mergeStep_lookup_ne h.1]

theorem nodupKeys_foldl_merge {inc ex : AttrMap} (h : NodupKeys ex) :
    NodupKeys (inc.foldl mergeStep ex) := by
  induction inc generalizing ex with
  | nil => exact h
  | cons kv inc ih =>
    rw [List.foldl_cons]
    exact ih (nodupKeys_mergeStep kv h)

theorem nodupKeys_merge {ex inc : AttrMap} (h : NodupKeys ex) :
    NodupKeys (merge_attributes ex inc) :=
  nodupKeys_foldl_merge h

theorem lookupA_merge_not_mem {inc ex : AttrMap} {k : String}
    (h : k ∉ keysOf inc) :
    lookupA (merge_attributes ex inc) k = lookupA ex k :=
  lookupA_foldl_not_mem h

/-! ## Lemmas: meaningfulness of normalized values -/

theorem digit_not_space {c : Char} (h : pyIsDigit c = true) :
    pyIsSpace c = false := by
  unfold pyIsDigit at h
  simp only [Bool.and_eq_true, decide_eq_true_eq] at h
  unfold pyIsSpace
  simp only [Bool.or_eq_false_iff, decide_eq_false_iff_not]
  refine ⟨⟨⟨⟨⟨?_, ?_⟩, ?_⟩, ?_⟩, ?_⟩, ?_⟩ <;>
    (intro he; rw [he] at h; exact absurd h (by decide))

theorem digit_lower {c : Char} (h : pyIsDigit c = true) : pyLowerC c = c := by
  unfold pyIsDigit at h
  simp only [Bool.and_eq_true, decide_eq_true_eq] at h
  have hu : ¬(pyIsUpperC c = true) := by
    unfold pyIsUpperC
    simp only [Bool.and_eq_true, decide_eq_true_eq, not_and]
    omega
  unfold pyLowerC
  rw [if_neg hu]

theorem digit_ne_n {c : Char} (h : pyIsDigit c = true) : pyLowerC c ≠ 'n' := by
  rw [digit_lower h]
  intro he
  rw [he] at h
  exact absurd h (by decide)

theorem dropWhile_eq_self_of_all {p : Char → Bool} {l : List Char}
    (h : ∀ c ∈ l, p c = false) : List.dropWhile p l = l := by
  cases l with
  | nil => rfl
  | cons c cs =>
    rw [List.dropWhile_cons, if_neg (by simp [h c (List.mem_cons_self c cs)])]

theorem trim_eq_self_of_all {l : List Char}
    (h : ∀ c ∈ l, pyIsSpace c = false) : trimChars l = l := by
  unfold trimChars
  rw [dropWhile_eq_self_of_all h,
    dropWhile_eq_self_of_all (fun c hc => h c (List.mem_reverse.mp hc)),
    List.reverse_reverse]

theorem trim_cons_of_head {c : Char} (l : List Char)
    (hc : pyIsSpace c = false) : ∃ t, trimChars (c :: l) = c :: t := by
  unfold trimChars
  rw [List.dropWhile_cons, if_neg (by simp [hc]), List.reverse_cons,
    List.dropWhile_append]
  by_cases hdw : (List.dropWhile pyIsSpace l.reverse).isEmpty
  · rw [if_pos hdw]
    exact ⟨[], by simp [List.dropWhile_cons, hc]⟩
  · rw [if_neg hdw]
    exact ⟨(List.dropWhile pyIsSpace l.reverse).reverse, by simp⟩

theorem is_meaningful_eq (v : Value) (h1 : v ≠ .vNone) (h2 : v ≠ .vNan) :
    is_meaningful v =
      (!((trimChars (pyStrChars v)) = []) &&
        !(stopWords.contains ((trimChars (pyStrChars v)).map pyLowerC))) := by
  cases v with
  | vNone => exact absurd rfl h1
  | vNan => exact absurd rfl h2
  | vStr s => rfl
  | vInt i => rfl
  | vFloat m => rfl
  | vList xs => rfl

theorem not_in_stopwords {c : Char} (t : List Char) (hn : pyLowerC c ≠ 'n') :
    stopWords.contains ((c :: t).map pyLowerC) = false := by
  rw [List.map_cons, Bool.eq_false_iff]
  intro hcon
  have hmem : (pyLowerC c :: t.map pyLowerC) ∈ stopWords :=
    List.elem_iff.mp hcon
  simp only [stopWords, List.mem_cons, List.not_mem_nil, or_false] at hmem
  rcases hmem with h | h | h | h | h <;>
    (injection h with hh _; exact hn hh)

theorem mean_true_of_trim_head {v : Value} {c : Char} {t : List Char}
    (h1 : v ≠ .vNone) (h2 : v ≠ .vNan)
    (ht : trimChars (pyStrChars v) = c :: t) (hn : pyLowerC c ≠ 'n') :
    is_meaningful v = true := by
  rw [is_meaningful_eq v h1 h2, ht, not_in_stopwords t hn]
  simp

theorem digitC_digit (n : Nat) : pyIsDigit (digitC n) = true := by
  unfold digitC
  split <;> decide

theorem natDigitsGo_digits :
    ∀ (fuel n : Nat), ∀ c ∈ natDigitsGo fuel n, pyIsDigit c = true := by
  intro fuel
  induction fuel with
  | zero =>
    intro n c hc
    cases hc
  | succ f ih =>
    intro n c hc
    unfold natDigitsGo at hc
    by_cases h : n < 10
    · rw [if_pos h, List.mem_singleton] at hc
      subst hc
      exact digitC_digit n
    · rw [if_neg h] at hc
      rcases List.mem_append.mp hc with hc | hc
      · exact ih _ c hc
      · rw [List.mem_singleton] at hc
        subst hc
        exact digitC_digit (n % 10)

theorem natDigits_spec (n : Nat) :
    natDigits n ≠ [] ∧ ∀ c ∈ natDigits n, pyIsDigit c = true := by
  refine ⟨?_, natDigitsGo_digits _ n⟩
  unfold natDigits natDigitsGo
  by_cases h : n < 10
  · rw [if_pos h]
    simp
  · rw [if_neg h]
    simp

theorem mean_vInt (i : Int) : is_meaningful (.vInt i) = true := by
  have hstr : pyStrChars (.vInt i) = intRepr i := rfl
  by_cases hi : i < 0
  · have hrepr : intRepr i = '-' :: natDigits (-i).toNat := by
      unfold intRepr
      rw [if_pos hi]
    have hall : ∀ c ∈ intRepr i, pyIsSpace c = false := by
      rw [hrepr]
      intro c hc
      rcases List.mem_cons.mp hc with rfl | hc
      · decide
      · exact digit_not_space ((natDigits_spec _).2 c hc)
    exact mean_true_of_trim_head (by simp) (by simp)
      (by rw [hstr, trim_eq_self_of_all hall, hrepr]) (by decide)
  · have hrepr : intRepr i = natDigits i.toNat := by
      unfold intRepr
      rw [if_neg hi]
    have hall : ∀ c ∈ intRepr i, pyIsSpace c = false := by
      rw [hrepr]
      intro c hc
      exact digit_not_space ((natDigits_spec _).2 c hc)
    rcases hne : natDigits i.toNat with _ | ⟨c, t⟩
    · exact absurd hne (natDigits_spec _).1
    · have hcdig : pyIsDigit c = true :=
        (natDigits_spec i.toNat).2 c (by rw [hne]; exact List.mem_cons_self c t)
      exact mean_true_of_trim_head (by simp) (by simp)
        (by rw [hstr, trim_eq_self_of_all hall, hrepr, hne]) (digit_ne_n hcdig)

theorem stripLeadZeros_digits {l : List Char}
    (h : ∀ c ∈ l, pyIsDigit c = true) :
    stripLeadZeros l ≠ [] ∧ ∀ c ∈ stripLeadZeros l, pyIsDigit c = true := by
  unfold stripLeadZeros
  by_cases hdw : l.dropWhile (fun x => decide (x = '0')) = []
  · rw [if_pos hdw]
    refine ⟨by simp, ?_⟩
    intro x hx
    rw [List.mem_singleton] at hx
    subst hx
    decide
  · rw [if_neg hdw]
    refine ⟨hdw, ?_⟩
    intro x hx
    exact h x ((List.dropWhile_sublist _).mem hx)

theorem stripTrailZeros_digits {l : List Char}
    (h : ∀ c ∈ l, pyIsDigit c = true) :
    stripTrailZeros l ≠ [] ∧ ∀ c ∈ stripTrailZeros l, pyIsDigit c = true := by
  unfold stripTrailZeros
  by_cases hdw : (l.reverse.dropWhile (fun x => decide (x = '0'))).reverse = []
  · rw [if_pos hdw]
    refine ⟨by simp, ?_⟩
    intro x hx
    rw [List.mem_singleton] at hx
    subst hx
    decide
  · rw [if_neg hdw]
    refine ⟨hdw, ?_⟩
    intro x hx
    rw [List.mem_reverse] at hx
    have hm := (List.dropWhile_sublist _).mem hx
    rw [List.mem_reverse] at hm
    exact h x hm

theorem takeWhile_eq_self_of_all {p : Char → Bool} {l : List Char}
    (h : ∀ c ∈ l, p c = true) : List.takeWhile p l = l := by
  induction l with
  | nil => rfl
  | cons c cs ih =>
    rw [List.takeWhile_cons, if_pos (h c (List.mem_cons_self c cs)),
      ih (fun x hx => h x (List.mem_cons_of_mem c hx))]

theorem digit_ne_dot {c : Char} (h : pyIsDigit c = true) :
    (decide (c ≠ '.')) = true := by
  unfold pyIsDigit at h
  simp only [Bool.and_eq_true, decide_eq_true_eq] at h
  simp only [ne_eq, decide_not, Bool.not_eq_true', decide_eq_false_iff_not]
  intro he
  rw [he] at h
  exact absurd h (by decide)

theorem leadingNumber_shape {st num : List Char}
    (h : leadingNumber st = some num) :
    ∃ d, d ≠ [] ∧ (∀ c ∈ d, pyIsDigit c = true) ∧
      (num = d ∨ ∃ f, f ≠ [] ∧ (∀ c ∈ f, pyIsDigit c = true) ∧
        num = d ++ '.' :: f) := by
  unfold leadingNumber at h
  by_cases hd : st.takeWhile pyIsDigit = []
  · rw [if_pos hd] at h
    cases h
  · rw [if_neg hd] at h
    refine ⟨st.takeWhile pyIsDigit, hd,
      fun c hc => List.mem_takeWhile_imp hc, ?_⟩
    by_cases hh : (st.drop (st.takeWhile pyIsDigit).length).head? = some '.'
    · rw [if_pos hh] at h
      by_cases hf :
          (st.drop (st.takeWhile pyIsDigit).length).tail.takeWhile pyIsDigit
            = []
      · rw [if_pos hf] at h
        injection h with h
        exact Or.inl h.symm
      · rw [if_neg hf] at h
        injection h with h
        exact Or.inr ⟨_, hf, fun c hc => List.mem_takeWhile_imp hc, h.symm⟩
    · rw [if_neg hh] at h
      injection h with h
      exact Or.inl h.symm

theorem floatRepr_of_digits {d : List Char} (hdall : ∀ c ∈ d, pyIsDigit c = true) :
    floatRepr d = stripLeadZeros d ++ '.' :: stripTrailZeros [] := by
  unfold floatRepr
  have hip : d.takeWhile (fun c => decide (c ≠ '.')) = d :=
    takeWhile_eq_self_of_all (fun c hc => digit_ne_dot (hdall c hc))
  dsimp only
  rw [hip, List.drop_eq_nil_of_le (by omega)]
  rfl

theorem floatRepr_of_dot {d f : List Char}
    (hdall : ∀ c ∈ d, pyIsDigit c = true)
    (hfall : ∀ c ∈ f, pyIsDigit c = true) :
    floatRepr (d ++ '.' :: f) = stripLeadZeros d ++ '.' :: stripTrailZeros f := by
  unfold floatRepr
  have hip : (d ++ '.' :: f).takeWhile (fun c => decide (c ≠ '.')) = d := by
    rw [List.takeWhile_append,
      if_pos (by rw [takeWhile_eq_self_of_all
        (fun c hc => digit_ne_dot (hdall c hc))]),
      List.takeWhile_cons, if_neg (by simp)]
    simp
  have hdrop : (d ++ '.' :: f).drop (d.length + 1) = f := by
    rw [show d ++ '.' :: f = (d ++ ['.']) ++ f by simp,
      show d.length + 1 = (d ++ ['.']).length by simp, List.drop_left]
  dsimp only
  rw [hip, hdrop,
    takeWhile_eq_self_of_all (fun c hc => digit_ne_dot (hfall c hc))]

theorem mean_vFloat_shape {num : List Char}
    (hshape : ∃ d, d ≠ [] ∧ (∀ c ∈ d, pyIsDigit c = true) ∧
      (num = d ∨ ∃ f, f ≠ [] ∧ (∀ c ∈ f, pyIsDigit c = true) ∧
        num = d ++ '.' :: f)) :
    is_meaningful (.vFloat ⟨num⟩) = true := by
  obtain ⟨d, hd, hdall, hcase⟩ := hshape
  have hstr : pyStrChars (.vFloat ⟨num⟩) = floatRepr num := rfl
  have hrepr : ∃ tz, floatRepr num = stripLeadZeros d ++ '.' :: tz ∧
      (∀ c ∈ tz, pyIsDigit c = true) := by
    rcases hcase with rfl | ⟨f, hf, hfall, rfl⟩
    · exact ⟨stripTrailZeros [], floatRepr_of_digits hdall,
        (stripTrailZeros_digits (by simp)).2⟩
    · exact ⟨stripTrailZeros f, floatRepr_of_dot hdall hfall,
        (stripTrailZeros_digits hfall).2⟩
  obtain ⟨tz, hrepr, htz⟩ := hrepr
  obtain ⟨hslne, hsldig⟩ := stripLeadZeros_digits hdall
  rcases hsl : stripLeadZeros d with _ | ⟨c, t⟩
  · exact absurd hsl hslne
  · have hcdig : pyIsDigit c = true :=
      hsldig c (by rw [hsl]; exact List.mem_cons_self c t)
    have hall : ∀ x ∈ floatRepr num, pyIsSpace x = false := by
      intro x hx
      rw [hrepr, hsl] at hx
      rcases List.mem_append.mp hx with hx | hx
      · exact digit_not_space (hsldig x (by rw [hsl]; exact hx))
      · rcases List.mem_cons.mp hx with rfl | hx
        · decide
        · exact digit_not_space (htz x hx)
    have htrim : trimChars (pyStrChars (.vFloat ⟨num⟩)) =
        c :: (t ++ '.' :: tz) := by
      rw [hstr, trim_eq_self_of_all hall, hrepr, hsl]
      rfl
    exact mean_true_of_trim_head (by simp) (by simp) htrim (digit_ne_n hcdig)

theorem mean_vList (xs : List Value) : is_meaningful (.vList xs) = true := by
  obtain ⟨t, ht⟩ := trim_cons_of_head
    (commaSep (xs.map pyReprChars) ++ [']'])
    (show pyIsSpace '[' = false by decide)
  exact mean_true_of_trim_head (by simp) (by simp) ht (by decide)

theorem mean_cast {v : Value} (h : is_meaningful v = true) :
    is_meaningful (maybe_cast_number v) = true := by
  cases v with
  | vStr s =>
    unfold maybe_cast_number
    dsimp only
    cases hln : leadingNumber ((trimChars s.data).filter (fun c => decide (c ≠ ','))) with
    | none => exact h
    | some num =>
      dsimp only
      by_cases hdot : num.contains '.'
      · rw [if_pos hdot]
        exact mean_vFloat_shape (leadingNumber_shape hln)
      · rw [if_neg hdot]
        exact mean_vInt _
  | vNone => exact h
  | vNan => exact h
  | vInt i => exact h
  | vFloat m => exact h
  | vList xs => exact h

theorem cast_scalar {v : Value} (h : isListV v = false) :
    isListV (maybe_cast_number v) = false := by
  cases v with
  | vStr s =>
    unfold maybe_cast_number
    dsimp only
    cases leadingNumber ((trimChars s.data).filter (fun c => decide (c ≠ ','))) with
    | none => rfl
    | some num =>
      dsimp only
      by_cases hdot : num.contains '.'
      · rw [if_pos hdot]; rfl
      · rw [if_neg hdot]; rfl
  | vNone => exact h
  | vNan => exact h
  | vInt i => exact h
  | vFloat m => exact h
  | vList xs => exact h

theorem normEqB_refl (v : Value) : normEqB v v = true := by
  unfold normEqB
  simp

/-! ## Lemmas: merge stability (toward idempotence) -/

theorem valToList_scalar {w : Value} (h : isListV w = false) :
    valToList w = [w] := by
  cases w with
  | vList xs => simp [isListV] at h
  | vNone => rfl
  | vNan => rfl
  | vStr s => rfl
  | vInt i => rfl
  | vFloat m => rfl

theorem mergeStep_not_mean {ex : AttrMap} {kv : String × Value}
    (h : is_meaningful kv.2 = false) : mergeStep ex kv = ex := by
  unfold mergeStep
  rw [if_pos (by simp [h])]

theorem entry_eq_of_lookup {M : AttrMap} {q : String × Value} {val : Value}
    (hn : NodupKeys M) (hq : q ∈ M) (hl : lookupA M q.1 = some val) :
    q.2 = val :=
  Option.some.inj ((lookupA_of_mem hn hq).symm.trans hl)

theorem stable_after_step {ex : AttrMap} {k : String} {v : Value}
    (hmean : is_meaningful v = true) (hscal : isListV v = false) :
    Stable (mergeStep ex (k, v)) k v := by
  unfold mergeStep
  rw [if_neg (by simp [hmean])]
  dsimp only
  cases hl : lookupA ex k with
  | none =>
    dsimp only
    refine ⟨maybe_cast_number v, lookupA_setKey_self _ _ _, mean_cast hmean,
      fun _ => ?_⟩
    refine ⟨maybe_cast_number v, ?_, normEqB_refl _⟩
    rw [valToList_scalar (cast_scalar hscal)]
    exact List.mem_singleton.mpr rfl
  | some ev =>
    dsimp only
    by_cases h2 : is_meaningful ev
    · rw [if_neg (by simp [h2])]
      by_cases h3 : k ∈ list_fields
      · rw [if_pos h3]
        by_cases hdiff :
            (valToList ev).all (fun it => !normEqB (maybe_cast_number v) it)
        · rw [if_pos hdiff]
          refine ⟨.vList (valToList ev ++ [maybe_cast_number v]),
            lookupA_setKey_self _ _ _, mean_vList _, fun _ => ?_⟩
          exact ⟨maybe_cast_number v, by simp [valToList], normEqB_refl _⟩
        · rw [if_neg hdiff]
          rw [Bool.not_eq_true] at hdiff
          have hex := List.all_eq_false.mp hdiff
          refine ⟨.vList (valToList ev), lookupA_setKey_self _ _ _,
            mean_vList _, fun _ => ?_⟩
          obtain ⟨x, hx, hnx⟩ := hex
          refine ⟨x, by simpa [valToList] using hx, ?_⟩
          simpa using hnx
      · rw [if_neg h3]
        exact ⟨ev, hl, h2, fun h3' => absurd h3' h3⟩
    · rw [if_pos (by simp [h2])]
      refine ⟨maybe_cast_number v, lookupA_setKey_self _ _ _, mean_cast hmean,
        fun _ => ?_⟩
      refine ⟨maybe_cast_number v, ?_, normEqB_refl _⟩
      rw [valToList_scalar (cast_scalar hscal)]
      exact List.mem_singleton.mpr rfl

theorem stable_congr {M M' : AttrMap} {k : String} {v : Value}
    (h : lookupA M' k = lookupA M k) (hst : Stable M k v) :
    Stable M' k v := by
  obtain ⟨m, hl, hm, hc⟩ := hst
  exact ⟨m, h ▸ hl, hm, hc⟩

theorem merge_cons (ex : AttrMap) (p : String × Value) (ps : AttrMap) :
    merge_attributes ex (p :: ps) = merge_attributes (mergeStep ex p) ps := rfl

theorem stable_merge {inc : AttrMap} (hn : NodupKeys inc)
    (hsc : scalarValues inc) :
    ∀ (ex : AttrMap), ∀ kv ∈ inc, is_meaningful kv.2 = true →
      Stable (merge_attributes ex inc) kv.1 kv.2 := by
  induction inc with
  | nil =>
    intro ex kv h
    cases h
  | cons p ps ih =>
    intro ex kv hkv hmean
    rw [merge_cons]
    rcases List.mem_cons.mp hkv with rfl | hkv
    · have h1 : Stable (mergeStep ex kv) kv.1 kv.2 :=
        stable_after_step hmean (hsc kv (List.mem_cons_self _ _))
      have h2 : lookupA (merge_attributes (mergeStep ex kv) ps) kv.1 =
          lookupA (mergeStep ex kv) kv.1 :=
        lookupA_foldl_not_mem (nodupKeys_cons_iff.mp hn).1
      exact stable_congr h2 h1
    · exact ih (nodupKeys_cons_iff.mp hn).2
        (fun q hq => hsc q (List.mem_cons_of_mem p hq)) (mergeStep ex p)
        kv hkv hmean

/-! ## Lemmas: the second merge only wraps scalars under multi-valued keys -/

theorem wrapCond_cons (p : String × Value) (J : AttrMap) (k : String) :
    wrapCond (p :: J) k =
      if p.1 = k then is_meaningful p.2 else wrapCond J k := by
  unfold wrapCond
  rw [lookupA_cons]
  by_cases h : p.1 = k <;> simp [h]

theorem wrapCond_of_not_mem {J : AttrMap} {k : String}
    (h : k ∉ keysOf J) : wrapCond J k = false := by
  unfold wrapCond
  rw [lookupA_eq_none_iff.mpr h]

theorem wrapEntry_of_list {inc : AttrMap} {q : String × Value}
    (h : isListV q.2 = true) : wrapEntry inc q = q := by
  unfold wrapEntry
  rw [if_neg (by simp [h])]

theorem wrapEntry_of_nonLF {inc : AttrMap} {q : String × Value}
    (h : q.1 ∉ list_fields) : wrapEntry inc q = q := by
  unfold wrapEntry
  rw [if_neg (by simp [h])]

theorem wrapEntry_of_notcond {inc : AttrMap} {q : String × Value}
    (h : wrapCond inc q.1 = false) : wrapEntry inc q = q := by
  unfold wrapEntry
  rw [if_neg (by simp [h])]

theorem wrapEntry_wraps {inc : AttrMap} {q : String × Value}
    (h1 : q.1 ∈ list_fields) (h2 : isListV q.2 = false)
    (h3 : wrapCond inc q.1 = true) :
    wrapEntry inc q = (q.1, Value.vList [q.2]) := by
  unfold wrapEntry
  rw [if_pos (by simp [h1, h2, h3])]

theorem wrapEntry_cons_ne {p q : String × Value} {J : AttrMap}
    (h : p.1 ≠ q.1) : wrapEntry (p :: J) q = wrapEntry J q := by
  unfold wrapEntry
  rw [wrapCond_cons, if_neg h]

theorem applyWrap_congr {J1 J2 M : AttrMap}
    (h : ∀ q ∈ M, wrapEntry J1 q = wrapEntry J2 q) :
    applyWrap J1 M = applyWrap J2 M := by
  unfold applyWrap
  exact List.map_congr_left h

theorem applyWrap_nil (M : AttrMap) : applyWrap [] M = M := by
  unfold applyWrap
  conv_rhs => rw [← List.map_id M]
  apply List.map_congr_left
  intro q _
  rw [wrapEntry_of_notcond (wrapCond_of_not_mem (by simp [keysOf]))]
  rfl

theorem mergeStep_stable_nonlist {M : AttrMap} {kv : String × Value}
    (hmean : is_meaningful kv.2 = true) (hst : Stable M kv.1 kv.2)
    (h3 : kv.1 ∉ list_fields) : mergeStep M kv = M := by
  obtain ⟨m, hl, hm, _⟩ := hst
  unfold mergeStep
  rw [if_neg (by simp [hmean])]
  dsimp only
  rw [hl]
  dsimp only
  rw [if_neg (by simp [hm]), if_neg h3]

theorem mergeStep_stable_list {M : AttrMap} {kv : String × Value} {m : Value}
    (hmean : is_meaningful kv.2 = true) (hl : lookupA M kv.1 = some m)
    (hm : is_meaningful m = true)
    (hmatch : ∃ x ∈ valToList m, normEqB (maybe_cast_number kv.2) x = true)
    (h3 : kv.1 ∈ list_fields) :
    mergeStep M kv = setKey M kv.1 (.vList (valToList m)) := by
  obtain ⟨x, hx, hnx⟩ := hmatch
  unfold mergeStep
  rw [if_neg (by simp [hmean])]
  dsimp only
  rw [hl]
  dsimp only
  rw [if_neg (by simp [hm]), if_pos h3,
    if_neg (by
      rw [Bool.not_eq_true, List.all_eq_false]
      exact ⟨x, hx, by simp [hnx]⟩)]

theorem second_merge_eq_applyWrap {J : AttrMap} (hnJ : NodupKeys J) :
    ∀ (M : AttrMap), NodupKeys M →
      (∀ kv ∈ J, is_meaningful kv.2 = true → Stable M kv.1 kv.2) →
      J.foldl mergeStep M = applyWrap J M := by
  induction J with
  | nil =>
    intro M _ _
    rw [List.foldl_nil, applyWrap_nil]
  | cons p J ih =>
    intro M hnM hstable
    rw [List.foldl_cons]
    have hpJ : p.1 ∉ keysOf J := (nodupKeys_cons_iff.mp hnJ).1
    have hnJ' : NodupKeys J := (nodupKeys_cons_iff.mp hnJ).2
    have htail : ∀ kv ∈ J, is_meaningful kv.2 = true → Stable M kv.1 kv.2 :=
      fun kv hkv hme => hstable kv (List.mem_cons_of_mem p hkv) hme
    by_cases hmean : is_meaningful p.2 = true
    · obtain ⟨m, hl, hm, hc⟩ := hstable p (List.mem_cons_self _ _) hmean
      by_cases h3 : p.1 ∈ list_fields
      · by_cases hml : isListV m = true
        · -- stored value already a list: the step rewrites it to itself
          have hstep : mergeStep M p = M := by
            obtain ⟨xs, rfl⟩ : ∃ xs, m = .vList xs := by
              cases m <;> simp [isListV] at hml ⊢
            rw [mergeStep_stable_list hmean hl hm (hc h3) h3]
            exact setKey_eq_self hnM (by simpa [valToList] using hl)
          rw [hstep, ih hnJ' M hnM htail]
          apply applyWrap_congr
          intro q hq
          by_cases hqp : q.1 = p.1
          · have hq2 : q.2 = m := entry_eq_of_lookup hnM hq (hqp ▸ hl)
            rw [wrapEntry_of_list (hq2 ▸ hml),
              wrapEntry_of_list (hq2 ▸ hml)]
          · rw [wrapEntry_cons_ne (fun he => hqp he.symm)]
        · -- stored value still a scalar: the step wraps it
          have hstep : mergeStep M p = setKey M p.1 (.vList [m]) := by
            rw [mergeStep_stable_list hmean hl hm (hc h3) h3,
              valToList_scalar (by simpa using hml)]
          rw [hstep]
          have hrec := ih hnJ' (setKey M p.1 (.vList [m]))
            (nodupKeys_setKey _ _ hnM)
            (fun kv hkv hme => by
              have hne : kv.1 ≠ p.1 :=
                fun he => hpJ (he ▸ mem_keysOf_of_mem hkv)
              exact stable_congr (lookupA_setKey_ne M _ hne)
                (htail kv hkv hme))
          rw [hrec]
          have hMup : setKey M p.1 (.vList [m]) =
              M.map (updF p.1 (.vList [m])) := by
            unfold setKey
            rw [if_pos (by simp [hl])]
          rw [hMup]
          unfold applyWrap
          rw [List.map_map]
          apply List.map_congr_left
          intro q hq
          simp only [Function.comp_apply]
          by_cases hqp : q.1 = p.1
          · have hq2 : q.2 = m := entry_eq_of_lookup hnM hq (hqp ▸ hl)
            have h1 : updF p.1 (.vList [m]) q = (q.1, .vList [m]) := by
              unfold updF
              rw [if_pos hqp]
            rw [h1, wrapEntry_of_list (by rfl),
              wrapEntry_wraps (hqp ▸ h3) (hq2 ▸ (by simpa using hml))
                (by rw [wrapCond_cons, if_pos hqp.symm]; exact hmean),
              hq2]
          · have h1 : updF p.1 (.vList [m]) q = q := by
              unfold updF
              rw [if_neg hqp]
            rw [h1, wrapEntry_cons_ne (fun he => hqp he.symm)]
      · -- not a multi-valued key: the step keeps the map unchanged
        rw [mergeStep_stable_nonlist hmean
          (hstable p (List.mem_cons_self _ _) hmean) h3,
          ih hnJ' M hnM htail]
        apply applyWrap_congr
        intro q hq
        by_cases hqp : q.1 = p.1
        · rw [wrapEntry_of_nonLF (hqp ▸ h3), wrapEntry_of_nonLF (hqp ▸ h3)]
        · rw [wrapEntry_cons_ne (fun he => hqp he.symm)]
    · -- incoming value not meaningful: the step skips it
      rw [mergeStep_not_mean (by simpa using hmean),
        ih hnJ' M hnM htail]
      apply applyWrap_congr
      intro q hq
      by_cases hqp : q.1 = p.1
      · rw [@wrapEntry_of_notcond (p :: J) q
          (by rw [wrapCond_cons, if_pos hqp.symm]; simpa using hmean),
          wrapEntry_of_notcond (wrapCond_of_not_mem (hqp ▸ hpJ))]
      · rw [wrapEntry_cons_ne (fun he => hqp he.symm)]

/-! ## Lemmas: first-write-wins and scalar wrapping -/

theorem merge_keeps_scalar {inc : AttrMap} :
    ∀ {ex : AttrMap} {k : String} {ev : Value}, k ∉ list_fields →
      lookupA ex k = some ev → is_meaningful ev = true →
      lookupA (merge_attributes ex inc) k = some ev := by
  induction inc with
  | nil =>
    intro ex k ev _ hl _
    exact hl
  | cons p ps ih =>
    intro ex k ev hLF hl hm
    rw [merge_cons]
    refine ih hLF ?_ hm
    by_cases hk : k = p.1
    · subst hk
      by_cases hmean : is_meaningful p.2 = true
      · rw [mergeStep_stable_nonlist hmean
          ⟨ev, hl, hm, fun h3 => absurd h3 hLF⟩ hLF]
        exact hl
      · rw [mergeStep_not_mean (by simpa using hmean)]
        exact hl
    · rw [mergeStep_lookup_ne hk]
      exact hl

theorem merge_wraps_matching_scalar {inc : AttrMap} (hnI : NodupKeys inc) :
    ∀ {ex : AttrMap} {k : String} {s v : Value}, k ∈ list_fields →
      lookupA ex k = some s → isListV s = false → is_meaningful s = true →
      lookupA inc k = some v → is_meaningful v = true →
      normEqB (maybe_cast_number v) s = true →
      lookupA (merge_attributes ex inc) k = some (.vList [s]) := by
  induction inc with
  | nil =>
    intro ex k s v _ _ _ _ hlv _ _
    cases hlv
  | cons p ps ih =>
    intro ex k s v hLF hl hscal hms hlv hmv heq
    rw [merge_cons]
    by_cases hk : p.1 = k
    · rw [lookupA_cons, if_pos hk] at hlv
      injection hlv with hlv
      subst hlv
      have hstep : mergeStep ex p =
          setKey ex p.1 (.vList (valToList s)) :=
        mergeStep_stable_list hmv (hk ▸ hl) hms
          ⟨s, by rw [valToList_scalar hscal]; exact List.mem_singleton.mpr rfl,
            heq⟩ (hk ▸ hLF)
      rw [hstep, lookupA_merge_not_mem (hk ▸ (nodupKeys_cons_iff.mp hnI).1),
        ← hk, lookupA_setKey_self, valToList_scalar hscal]
    · rw [lookupA_cons, if_neg hk] at hlv
      exact ih (nodupKeys_cons_iff.mp hnI).2 hLF
        (by rw [mergeStep_lookup_ne (fun he => hk he.symm)]; exact hl)
        hscal hms hlv hmv heq

/-! ## Lemmas: the multi-valued-field invariant -/

theorem lookupA_mem {m : List (String × α)} {k : String} {v : α}
    (h : lookupA m k = some v) : (k, v) ∈ m := by
  induction m with
  | nil => cases h
  | cons p ps ih =>
    obtain ⟨p1, p2⟩ := p
    rw [lookupA_cons] at h
    by_cases hp : p1 = k
    · rw [if_pos hp] at h
      injection h with h
      subst hp
      subst h
      exact List.mem_cons_self _ _
    · rw [if_neg hp] at h
      exact List.mem_cons_of_mem _ (ih h)

theorem listInv_setKey {ex : AttrMap} {k : String} {v : Value}
    (hinv : listInv ex) (hv : pairwiseNormDistinct (valToList v)) :
    listInv (setKey ex k v) := by
  intro q hq hLF
  unfold setKey at hq
  by_cases hs : (lookupA ex k).isSome
  · rw [if_pos hs] at hq
    obtain ⟨q0, hq0, heq⟩ := List.mem_map.mp hq
    unfold updF at heq
    by_cases hqk : q0.1 = k
    · rw [if_pos hqk] at heq
      subst heq
      exact hv
    · rw [if_neg hqk] at heq
      subst heq
      exact hinv q0 hq0 hLF
  · rw [if_neg hs] at hq
    rcases List.mem_append.mp hq with hq | hq
    · exact hinv q hq hLF
    · rw [List.mem_singleton] at hq
      subst hq
      exact hv

theorem pairwise_scalar_val {v : Value} (h : isListV v = false) :
    pairwiseNormDistinct (valToList v) := by
  rw [valToList_scalar h]
  exact List.pairwise_singleton _ _

theorem pairwise_append_new {xs : List Value} {nv : Value}
    (hp : pairwiseNormDistinct xs)
    (hall : ∀ x ∈ xs, normEqB nv x = false) :
    pairwiseNormDistinct (xs ++ [nv]) := by
  unfold pairwiseNormDistinct at *
  rw [List.pairwise_append]
  refine ⟨hp, by simp, ?_⟩
  intro a ha b hb
  rw [List.mem_singleton] at hb
  subst hb
  intro he
  have hne := hall a ha
  unfold normEqB at hne
  simp only [decide_eq_false_iff_not] at hne
  exact hne he.symm

theorem listInv_mergeStep {ex : AttrMap} {kv : String × Value}
    (hscal : isListV kv.2 = false) (hinv : listInv ex) :
    listInv (mergeStep ex kv) := by
  unfold mergeStep
  by_cases h1 : is_meaningful kv.2
  · rw [if_neg (by simp [h1])]
    cases hl : lookupA ex kv.1 with
    | none =>
      dsimp only
      exact listInv_setKey hinv (pairwise_scalar_val (cast_scalar hscal))
    | some ev =>
      dsimp only
      by_cases h2 : is_meaningful ev
      · rw [if_neg (by simp [h2])]
        by_cases h3 : kv.1 ∈ list_fields
        · rw [if_pos h3]
          have hev : pairwiseNormDistinct (valToList ev) :=
            hinv (kv.1, ev) (lookupA_mem hl) h3
          by_cases hdiff : (valToList ev).all
              (fun it => !normEqB (maybe_cast_number kv.2) it)
          · rw [if_pos hdiff]
            refine listInv_setKey hinv ?_
            show pairwiseNormDistinct (valToList ev ++ [maybe_cast_number kv.2])
            refine pairwise_append_new hev (fun x hx => ?_)
            have := List.all_eq_true.mp hdiff x hx
            simpa using this
          · rw [if_neg hdiff]
            exact listInv_setKey hinv hev
        · rw [if_neg h3]
          exact hinv
      · rw [if_pos (by simp [h2])]
        exact listInv_setKey hinv (pairwise_scalar_val (cast_scalar hscal))
  · rw [if_pos (by simp [h1])]
    exact hinv

theorem listInv_merge {inc : AttrMap} :
    ∀ {ex : AttrMap}, scalarValues inc → listInv ex →
      listInv (merge_attributes ex inc) := by
  induction inc with
  | nil =>
    intro ex _ h
    exact h
  | cons p ps ih =>
    intro ex hsc hinv
    rw [merge_cons]
    exact ih (fun q hq => hsc q (List.mem_cons_of_mem p hq))
      (listInv_mergeStep (hsc p (List.mem_cons_self _ _)) hinv)

theorem mergeStep_grows_list {ex : AttrMap} {kv : String × Value}
    {xs : List Value} (hLF : kv.1 ∈ list_fields)
    (hl : lookupA ex kv.1 = some (.vList xs)) :
    ∃ ys, lookupA (mergeStep ex kv) kv.1 = some (.vList (xs ++ ys)) := by
  unfold mergeStep
  by_cases h1 : is_meaningful kv.2
  · rw [if_neg (by simp [h1])]
    dsimp only
    rw [hl]
    dsimp only
    rw [if_neg (by simp [mean_vList xs]), if_pos hLF]
    by_cases hdiff : (valToList (.vList xs)).all
        (fun it => !normEqB (maybe_cast_number kv.2) it)
    · rw [if_pos hdiff]
      exact ⟨[maybe_cast_number kv.2], by rw [lookupA_setKey_self]; rfl⟩
    · rw [if_neg hdiff]
      exact ⟨[], by rw [lookupA_setKey_self]; simp [valToList]⟩
  · rw [if_pos (by simp [h1])]
    exact ⟨[], by rw [hl]; simp⟩

theorem merge_grows_list {inc : AttrMap} :
    ∀ {ex : AttrMap} {k : String} {xs : List Value}, k ∈ list_fields →
      lookupA ex k = some (.vList xs) →
      ∃ ys, lookupA (merge_attributes ex inc) k =
        some (.vList (xs ++ ys)) := by
  induction inc with
  | nil =>
    intro ex k xs _ hl
    exact ⟨[], by simpa using hl⟩
  | cons p ps ih =>
    intro ex k xs hLF hl
    rw [merge_cons]
    by_cases hk : k = p.1
    · subst hk
      obtain ⟨ys, hys⟩ := mergeStep_grows_list hLF hl
      obtain ⟨zs, hzs⟩ := ih hLF hys
      exact ⟨ys ++ zs, by rw [hzs]; simp⟩
    · exact ih hLF (by rw [mergeStep_lookup_ne hk]; exact hl)

/-! ## Claim theorems -/

/-- Claim C1, counterexample: merging the same incoming map a second time
does not leave the result unchanged — a scalar stored under the
multi-valued key `colors` is rewritten to the one-element list holding
it, so the resulting map differs from the once-merged map. -/
theorem merge_attributes_second_merge_changes_map :
    merge_attributes (merge_attributes [] [("colors", Value.vStr "Red")])
        [("colors", Value.vStr "Red")] ≠
      merge_attributes [] [("colors", Value.vStr "Red")] ∧
    merge_attributes [] [("colors", Value.vStr "Red")] =
      [("colors", Value.vStr "Red")] ∧
    merge_attributes (merge_attributes [] [("colors", Value.vStr "Red")])
        [("colors", Value.vStr "Red")] =
      [("colors", Value.vList [Value.vStr "Red"])] := by
  refine ⟨?_, by decide, by decide⟩
  decide

/-- Claim C1 (amended): for well-formed attribute maps (no duplicate keys,
incoming values scalar as in any row-derived map), re-merging an identical
incoming map adds no duplicate list entries and changes no scalar value;
the only change is that a multi-valued key whose stored value is still a
scalar and which the incoming map meaningfully sets is rewritten to the
one-element list holding that scalar (`applyWrap`). -/
theorem merge_attributes_idem_up_to_wrap (E I : AttrMap)
    (hnE : NodupKeys E) (hnI : NodupKeys I) (hsc : scalarValues I) :
    merge_attributes (merge_attributes E I) I =
      applyWrap I (merge_attributes E I) :=
  second_merge_eq_applyWrap hnI (merge_attributes E I) (nodupKeys_merge hnE)
    (fun kv hkv hm => stable_merge hnI hsc E kv hkv hm)

/-- Witness for the amended C1 theorem at a concrete entity and row. -/
theorem merge_attributes_idem_up_to_wrap_witness :
    NodupKeys ([("os", Value.vStr "Android 13")] : AttrMap) ∧
    NodupKeys ([("ram", Value.vStr "8GB"), ("color", Value.vStr "Red")] :
      AttrMap) ∧
    scalarValues [("ram", Value.vStr "8GB"), ("color", Value.vStr "Red")] ∧
    merge_attributes
        (merge_attributes [("os", Value.vStr "Android 13")]
          [("ram", Value.vStr "8GB"), ("color", Value.vStr "Red")])
        [("ram", Value.vStr "8GB"), ("color", Value.vStr "Red")] =
      applyWrap [("ram", Value.vStr "8GB"), ("color", Value.vStr "Red")]
        (merge_attributes [("os", Value.vStr "Android 13")]
          [("ram", Value.vStr "8GB"), ("color", Value.vStr "Red")]) :=
  ⟨by decide, by decide, by decide,
    merge_attributes_idem_up_to_wrap _ _ (by decide) (by decide) (by decide)⟩

/-- Claim C2: a non-multi-valued key holding a meaningful value is left
unchanged by any merge (first-write-wins). -/
theorem first_write_wins (ex inc : AttrMap) (k : String) (ev : Value)
    (hLF : k ∉ list_fields) (hl : lookupA ex k = some ev)
    (hm : is_meaningful ev = true) :
    lookupA (merge_attributes ex inc) k = some ev :=
  merge_keeps_scalar hLF hl hm

/-- Witness for C2: the spec's own example — an entity with
`os = "Android 13"` merged with incoming `os = "Android 14"` keeps
`os = "Android 13"`. -/
theorem first_write_wins_witness :
    ("os" ∉ list_fields) ∧
    lookupA [("os", Value.vStr "Android 13")] "os" =
      some (Value.vStr "Android 13") ∧
    is_meaningful (Value.vStr "Android 13") = true ∧
    lookupA
        (merge_attributes [("os", Value.vStr "Android 13")]
          [("os", Value.vStr "Android 14")]) "os" =
      some (Value.vStr "Android 13") :=
  ⟨by decide, by decide, by decide,
    first_write_wins _ [("os", Value.vStr "Android 14")] _ _
      (by decide) (by decide) (by decide)⟩

/-- Claim C3, counterexample: the merge engine stores the
numeric-normalized values, not the raw strings — merging `ram="8GB"` then
`ram="12GB"` stores the integer list `[8, 12]`, not `["8GB","12GB"]`
(and the first merge stores the scalar `8`, not a list). -/
theorem list_accumulation_stores_normalized :
    merge_attributes [] [("ram", Value.vStr "8GB")] =
      [("ram", Value.vInt 8)] ∧
    lookupA
        (merge_attributes (merge_attributes [] [("ram", Value.vStr "8GB")])
          [("ram", Value.vStr "12GB")]) "ram" =
      some (Value.vList [Value.vInt 8, Value.vInt 12]) ∧
    Value.vList [Value.vInt 8, Value.vInt 12] ≠
      Value.vList [Value.vStr "8GB", Value.vStr "12GB"] :=
  ⟨by decide, by decide, by decide⟩

/-- Claim C3 (amended): under any sequence of merges of row-derived
(scalar-valued) incoming maps starting from the empty map, every
multi-valued key stores normalized values that are pairwise distinct
under the case-insensitive, whitespace-trim-insensitive comparison
(`listInv` holds initially and is preserved by every merge), and a stored
list only ever grows by appending at its end, preserving first-appearance
order; merging `ram="8GB"` then `ram="12GB"` yields the stored list
`[8, 12]` (the normalized values), and a later merge of `ram="8gb"`
changes nothing. -/
theorem list_fields_pairwise_distinct :
    listInv [] ∧
    (∀ E I : AttrMap, scalarValues I → listInv E →
      listInv (merge_attributes E I)) ∧
    (∀ (E I : AttrMap) (k : String) (xs : List Value), k ∈ list_fields →
      lookupA E k = some (.vList xs) →
      ∃ ys, lookupA (merge_attributes E I) k = some (.vList (xs ++ ys))) ∧
    lookupA
        (merge_attributes (merge_attributes [] [("ram", Value.vStr "8GB")])
          [("ram", Value.vStr "12GB")]) "ram" =
      some (Value.vList [Value.vInt 8, Value.vInt 12]) ∧
    merge_attributes
        (merge_attributes (merge_attributes [] [("ram", Value.vStr "8GB")])
          [("ram", Value.vStr "12GB")]) [("ram", Value.vStr "8gb")] =
      merge_attributes (merge_attributes [] [("ram", Value.vStr "8GB")])
        [("ram", Value.vStr "12GB")] := by
  refine ⟨by decide, ?_, ?_, by decide, by decide⟩
  · intro E I hsc hinv
    exact listInv_merge hsc hinv
  · intro E I k xs hLF hl
    exact merge_grows_list hLF hl

/-- Witness for the amended C3 theorem at a concrete store and row. -/
theorem list_fields_pairwise_distinct_witness :
    scalarValues [("ram", Value.vStr "8gb")] ∧
    listInv [("ram", Value.vList [Value.vInt 8, Value.vInt 12])] ∧
    listInv (merge_attributes
      [("ram", Value.vList [Value.vInt 8, Value.vInt 12])]
      [("ram", Value.vStr "8gb")]) ∧
    ("ram" ∈ list_fields) ∧
    (∃ ys, lookupA (merge_attributes
        [("ram", Value.vList [Value.vInt 8, Value.vInt 12])]
        [("ram", Value.vStr "8gb")]) "ram" =
      some (Value.vList ([Value.vInt 8, Value.vInt 12] ++ ys))) :=
  ⟨by decide, by decide,
    list_fields_pairwise_distinct.2.1 _ _ (by decide) (by decide),
    by decide,
    list_fields_pairwise_distinct.2.2.1 _ [("ram", Value.vStr "8gb")] "ram"
      [Value.vInt 8, Value.vInt 12] (by decide) (by decide)⟩

/-- Claim C10: when a multi-valued key holds a meaningful scalar `s` and
the incoming map's normalized value for that key equals `s` under the
lowercase, whitespace-trimmed comparison, the merge leaves the stored
values unchanged but rewrites the entry from the scalar `s` to the
one-element list `[s]`. -/
theorem merge_scalar_match_wraps (ex inc : AttrMap) (k : String)
    (s v : Value) (hnI : NodupKeys inc) (hLF : k ∈ list_fields)
    (hl : lookupA ex k = some s) (hscal : isListV s = false)
    (hms : is_meaningful s = true) (hlv : lookupA inc k = some v)
    (hmv : is_meaningful v = true)
    (heq : normEqB (maybe_cast_number v) s = true) :
    lookupA (merge_attributes ex inc) k = some (.vList [s]) :=
  merge_wraps_matching_scalar hnI hLF hl hscal hms hlv hmv heq

/-- Witness for C10: merging incoming `colors = " red "` into an entity
with scalar `colors = "Red"` rewrites the entry to `["Red"]`. -/
theorem merge_scalar_match_wraps_witness :
    NodupKeys ([("colors", Value.vStr " red ")] : AttrMap) ∧
    ("colors" ∈ list_fields) ∧
    normEqB (maybe_cast_number (Value.vStr " red ")) (Value.vStr "Red")
      = true ∧
    lookupA
        (merge_attributes [("colors", Value.vStr "Red")]
          [("colors", Value.vStr " red ")]) "colors" =
      some (Value.vList [Value.vStr "Red"]) :=
  ⟨by decide, by decide, by decide,
    merge_scalar_match_wraps [("colors", Value.vStr "Red")] _ _
      (Value.vStr "Red") (Value.vStr " red ") (by decide) (by decide)
      (by decide) (by decide) (by decide) (by decide) (by decide)
      (by decide)⟩

/-- Claim C4: the Identifier Generator is the deterministic UUID5 hash of
normalize(brand) + "|" + normalize(model) with normalize = trim +
lowercase, so two (brand, model) pairs whose differences are erased by
that normalization (letter case, leading/trailing whitespace) receive the
same id. -/
theorem stable_phone_id_deterministic :
    (∀ b m : String, stable_phone_id b m =
      uuid5 namespaceURL
        (utf8Encode ((specNormalize b).data ++ '|' ::
          (specNormalize m).data))) ∧
    (∀ b1 m1 b2 m2 : String, specNormalize b1 = specNormalize b2 →
      specNormalize m1 = specNormalize m2 →
      stable_phone_id b1 m1 = stable_phone_id b2 m2) := by
  constructor
  · intro b m
    rfl
  · intro b1 m1 b2 m2 hb hm
    unfold stable_phone_id
    unfold specNormalize at hb hm
    rw [hb, hm]

/-- Witness for C4: a case/edge-whitespace variant pair receives the
same id. -/
theorem stable_phone_id_deterministic_witness :
    specNormalize " SAMSUNG " = specNormalize "samsung" ∧
    specNormalize "Galaxy S21" = specNormalize "galaxy s21" ∧
    stable_phone_id " SAMSUNG " "Galaxy S21" =
      stable_phone_id "samsung" "galaxy s21" :=
  ⟨by decide, by decide,
    stable_phone_id_deterministic.2 _ _ _ _ (by decide) (by decide)⟩

/-- Claim C5, counterexample: the synthesized fallback key for the
unrecognized column "Foo Bar Baz" is "attr_foo bar baz" — the cleaning
step turns non-alphanumeric runs into spaces, not underscores — so the
claimed key "attr_foo_bar_baz" never appears. -/
theorem fallback_key_keeps_spaces :
    row_to_attributes
        [("brand", Value.vStr "Apple"), ("model", Value.vStr "iPhone 13"),
          ("Foo Bar Baz", Value.vStr "x")]
        (some "brand") (some "model") =
      (some "Apple", some "iPhone 13",
        [("attr_foo bar baz", Value.vStr "x")]) ∧
    ("attr_foo bar baz" : String) ≠ "attr_foo_bar_baz" := by
  refine ⟨by decide, by decide⟩

/-- Claim C5 (amended): the column name "RAM (GB)" canonicalizes to the
key "ram" (direct alias hit on the cleaned form "ram gb"), and the
unrecognized column name "Foo Bar Baz" falls through the fuzzy stages
(best alias score well below 0.85, best canonical-name score below 0.90)
to the synthesized fallback key "attr_" plus the cleaned name — namely
"attr_foo bar baz", with the cleaned name's spaces preserved. -/
theorem canonicalization_examples :
    best_canonical "RAM (GB)" = some "ram" ∧
    best_canonical "Foo Bar Baz" = none ∧
    row_to_attributes
        [("brand", Value.vStr "Apple"), ("model", Value.vStr "iPhone 13"),
          ("Foo Bar Baz", Value.vStr "x")]
        (some "brand") (some "model") =
      (some "Apple", some "iPhone 13",
        [("attr_foo bar baz", Value.vStr "x")]) := by
  refine ⟨by decide, by decide, by decide⟩

/-- Claim C7: when the brand cell is not meaningful but the model is, a
model string of at least two whitespace tokens whose first token starts
uppercase (or is fully uppercase) and has length in [2, 12] is split:
the first token becomes the brand and the space-joined remainder the
model; in particular a row with an empty brand column and model
"Samsung Galaxy S21" resolves to brand "Samsung", model "Galaxy S21". -/
theorem brand_split_of_model :
    (∀ (mv : String) (c : Char) (cs : List Char) (rest : List (List Char)),
      splitWs (trimChars mv.data) = (c :: cs) :: rest → rest ≠ [] →
      (pyIsUpperC c = true ∨ pyIsUpperStr (c :: cs) = true) →
      2 ≤ (c :: cs).length → (c :: cs).length ≤ 12 →
      split_brand_from_model mv =
        (some ⟨c :: cs⟩, ⟨trimChars (joinSpace rest)⟩)) ∧
    row_to_attributes
        [("brand", Value.vStr ""), ("model", Value.vStr "Samsung Galaxy S21")]
        (some "brand") (some "model") =
      (some "Samsung", some "Galaxy S21", []) := by
  constructor
  · intro mv c cs rest hsp hrest hup h2 h12
    unfold split_brand_from_model
    have hmv : ¬(mv = "") := by
      intro he
      subst he
      rw [show trimChars "".data = [] from rfl] at hsp
      cases hsp
    rw [if_neg hmv, hsp]
    rcases rest with _ | ⟨r0, rs⟩
    · exact absurd rfl hrest
    · dsimp only
      rw [if_pos]
      simp only [Bool.and_eq_true, Bool.or_eq_true, decide_eq_true_eq]
      refine ⟨?_, h2, h12⟩
      rcases hup with hup | hup
      · exact Or.inl hup
      · exact Or.inr hup
  · decide

/-- Witness for C7: the split of "Samsung Galaxy S21" at its concrete
token list. -/
theorem brand_split_of_model_witness :
    splitWs (trimChars "Samsung Galaxy S21".data) =
      ('S' :: ['a', 'm', 's', 'u', 'n', 'g']) ::
        [['G', 'a', 'l', 'a', 'x', 'y'], ['S', '2', '1']] ∧
    split_brand_from_model "Samsung Galaxy S21" =
      (some "Samsung", "Galaxy S21") := by
  refine ⟨by decide, ?_⟩
  rw [brand_split_of_model.1 "Samsung Galaxy S21" 'S'
    ['a', 'm', 's', 'u', 'n', 'g']
    [['G', 'a', 'l', 'a', 'x', 'y'], ['S', '2', '1']]
    (by decide) (by decide) (Or.inl (by decide)) (by decide) (by decide)]
  decide

/-- Claim C8 (code bug): a file whose UTF-8 decode fails and whose
Latin-1 retry then raises is NOT logged and skipped — the retry runs
inside the `except UnicodeDecodeError` handler, its exception is not
caught by the sibling `except Exception` clause, and `main` has no
handler, so the batch aborts and later files stay unprocessed.  By
contrast, a non-decode failure of the first attempt, a successful Latin-1
retry, and an empty table are all handled as the claim describes. -/
theorem latin1_retry_failure_aborts_batch :
    runBatch
        [⟨.raise .unicodeDecodeError, .raise (.otherError "parse error")⟩,
          ⟨.ok 3, .ok 3⟩] =
      ([], some (.otherError "parse error")) ∧
    runBatch
        [⟨.raise (.otherError "bad header"), .ok 1⟩,
          ⟨.raise .unicodeDecodeError, .ok 5⟩,
          ⟨.ok 0, .ok 0⟩, ⟨.ok 3, .ok 3⟩] =
      ([.skippedReadError, .processedRows 5, .skippedEmpty,
          .processedRows 3], none) :=
  ⟨rfl, rfl⟩

/-! ## Lemmas: the numeric-coercion correspondence -/

theorem contains_dot_false {d : List Char}
    (h : ∀ c ∈ d, pyIsDigit c = true) : d.contains '.' = false := by
  rw [Bool.eq_false_iff]
  intro hc
  have hmem : '.' ∈ d := List.elem_iff.mp hc
  exact absurd (h '.' hmem) (by decide)

theorem contains_dot_true (d f : List Char) :
    (d ++ '.' :: f).contains '.' = true :=
  List.elem_iff.mpr (List.mem_append.mpr (Or.inr (List.mem_cons_self _ _)))

theorem takeWhile_digits_stops {rest : List Char}
    (h : ∀ c, rest.head? = some c → pyIsDigit c = false) :
    rest.takeWhile pyIsDigit = [] := by
  cases rest with
  | nil => rfl
  | cons c r2 => rw [List.takeWhile_cons, if_neg (by simp [h c rfl])]

theorem takeWhile_digits_lead {d rest : List Char}
    (hdall : ∀ c ∈ d, pyIsDigit c = true)
    (hrest : rest.takeWhile pyIsDigit = []) :
    (d ++ rest).takeWhile pyIsDigit = d := by
  rw [List.takeWhile_append, if_pos (by rw [takeWhile_eq_self_of_all hdall]),
    hrest, List.append_nil]

/-- Claim C6, counterexample: the code removes commas before matching the
numeric prefix, so for "1,234" — whose trimmed form begins with the
maximal numeric prefix "1" followed by the non-digit ',' — the result is
the integer 1234, not the integer 1 the claim prescribes. -/
theorem maybe_cast_number_comma_counterexample :
    maybe_cast_number (.vStr "1,234") = .vInt 1234 ∧
    trimChars ("1,234").data = ['1', ',', '2', '3', '4'] ∧
    pyIsDigit '1' = true ∧ pyIsDigit ',' = false ∧
    Value.vInt 1234 ≠ Value.vInt 1 := by
  refine ⟨by decide, by decide, by decide, by decide, by decide⟩

/-- Claim C6 (amended): on the trimmed, comma-removed form of the input
string, if a maximal numeric prefix (digits, optionally a dot and more
digits) exists, `maybe_cast_number` returns the float carrying that
prefix when it contains a dot and the integer value of the digits
otherwise; a string whose trimmed, comma-removed form does not start with
a digit passes through unchanged. -/
theorem maybe_cast_number_spec :
    (∀ (s : String) (d rest : List Char),
      (trimChars s.data).filter (· ≠ ',') = d ++ rest →
      d ≠ [] → (∀ c ∈ d, pyIsDigit c = true) →
      (∀ c, rest.head? = some c → pyIsDigit c = false) →
      (∀ c rest2, rest = '.' :: c :: rest2 → pyIsDigit c = false) →
      maybe_cast_number (.vStr s) = .vInt (Int.ofNat (decDigits d))) ∧
    (∀ (s : String) (d f rest : List Char),
      (trimChars s.data).filter (· ≠ ',') = d ++ '.' :: (f ++ rest) →
      d ≠ [] → (∀ c ∈ d, pyIsDigit c = true) →
      f ≠ [] → (∀ c ∈ f, pyIsDigit c = true) →
      (∀ c, rest.head? = some c → pyIsDigit c = false) →
      maybe_cast_number (.vStr s) = .vFloat ⟨d ++ '.' :: f⟩) ∧
    (∀ s : String,
      (∀ c, ((trimChars s.data).filter (· ≠ ',')).head? = some c →
        pyIsDigit c = false) →
      maybe_cast_number (.vStr s) = .vStr s) := by
  refine ⟨?_, ?_, ?_⟩
  · intro s d rest hst hd hdall hrest hrestdot
    have hln : leadingNumber (d ++ rest) = some d := by
      unfold leadingNumber
      dsimp only
      rw [takeWhile_digits_lead hdall (takeWhile_digits_stops hrest),
        if_neg hd, List.drop_left]
      cases rest with
      | nil => rfl
      | cons c r2 =>
        by_cases hc : c = '.'
        · subst hc
          rw [if_pos (show ('.' :: r2).head? = some '.' from rfl)]
          have hfs : r2.takeWhile pyIsDigit = [] := by
            cases r2 with
            | nil => rfl
            | cons c2 r3 =>
              rw [List.takeWhile_cons, if_neg (by simp [hrestdot c2 r3 rfl])]
          rw [show ('.' :: r2).tail = r2 from rfl, hfs, if_pos rfl]
        · rw [if_neg (by simp [hc])]
    unfold maybe_cast_number
    dsimp only
    rw [hst, hln]
    dsimp only
    rw [if_neg (by rw [contains_dot_false hdall]; simp)]
  · intro s d f rest hst hd hdall hf hfall hrest
    have hln : leadingNumber (d ++ '.' :: (f ++ rest)) =
        some (d ++ '.' :: f) := by
      unfold leadingNumber
      dsimp only
      have htw : (d ++ '.' :: (f ++ rest)).takeWhile pyIsDigit = d :=
        takeWhile_digits_lead hdall
          (by rw [List.takeWhile_cons, if_neg (by decide)])
      rw [htw, if_neg hd, List.drop_left]
      rw [if_pos (show ('.' :: (f ++ rest)).head? = some '.' from rfl)]
      rw [show ('.' :: (f ++ rest)).tail = f ++ rest from rfl,
        takeWhile_digits_lead hfall (takeWhile_digits_stops hrest),
        if_neg hf]
    unfold maybe_cast_number
    dsimp only
    rw [hst, hln]
    dsimp only
    rw [if_pos (by rw [contains_dot_true])]
  · intro s hhead
    unfold maybe_cast_number
    dsimp only
    have hln : leadingNumber ((trimChars s.data).filter (· ≠ ',')) = none := by
      unfold leadingNumber
      dsimp only
      rw [takeWhile_digits_stops hhead, if_pos rfl]
    rw [hln]

/-- Witness for the amended C6 theorem: "5000 mAh" normalizes to the
integer 5000. -/
theorem maybe_cast_number_spec_witness :
    ((trimChars "5000 mAh".data).filter (· ≠ ',') =
      ['5', '0', '0', '0'] ++ [' ', 'm', 'A', 'h']) ∧
    maybe_cast_number (.vStr "5000 mAh") = .vInt 5000 := by
  refine ⟨by decide, ?_⟩
  rw [maybe_cast_number_spec.1 "5000 mAh" ['5', '0', '0', '0']
    [' ', 'm', 'A', 'h'] (by decide) (by decide) (by decide) (by decide)
    (by intro c rest2 h; injection h with h1 _; exact absurd h1 (by decide))]
  decide

/-! ## Lemmas: keyed update of the phone store -/

theorem lookupA_map_if {m : List (String × α)} {k : String}
    (f : α → α) {e : α} (h : lookupA m k = some e) :
    lookupA (m.map (fun p => if p.1 = k then (p.1, f p.2) else p)) k =
      some (f e) := by
  induction m with
  | nil => cases h
  | cons p ps ih =>
    rw [lookupA_cons] at h
    rw [List.map_cons]
    by_cases hp : p.1 = k
    · rw [if_pos hp] at h
      injection h with h
      subst h
      rw [if_pos hp, lookupA_cons, if_pos hp]
    · rw [if_neg hp] at h
      rw [if_neg hp, lookupA_cons, if_neg hp]
      exact ih h

theorem lookupA_map_if_ne {m : List (String × α)} {k k' : String}
    (f : α → α) (h : k' ≠ k) :
    lookupA (m.map (fun p => if p.1 = k then (p.1, f p.2) else p)) k' =
      lookupA m k' := by
  induction m with
  | nil => rfl
  | cons p ps ih =>
    rw [List.map_cons]
    by_cases hp : p.1 = k
    · have hp' : ¬(p.1 = k') := fun he => h (he.symm.trans hp)
      rw [if_pos hp, lookupA_cons, lookupA_cons, if_neg hp', if_neg hp']
      exact ih
    · rw [if_neg hp, lookupA_cons, lookupA_cons]
      by_cases hp' : p.1 = k'
      · rw [if_pos hp', if_pos hp']
      · rw [if_neg hp', if_neg hp']
        exact ih

theorem keysOf_map_if (m : List (String × α)) (k : String) (f : α → α) :
    keysOf (m.map (fun p => if p.1 = k then (p.1, f p.2) else p)) =
      keysOf m := by
  unfold keysOf
  rw [List.map_map]
  apply List.map_congr_left
  intro p _
  by_cases hp : p.1 = k <;> simp [hp]

/-- Claim C9: the per-row upsert never changes the partition's brand
field; when the row's id is already present, the key set is unchanged
(no entity created or removed), the targeted entity keeps its id, brand
and model and only its attribute map changes (by a merge), and every
other id maps to exactly the entity it mapped to before; when the id is
absent, a fresh entity carrying that id, brand and model (with the
incoming attributes merged into an empty map) is appended and all other
entities are untouched. -/
theorem upsert_frame (db : BrandDB) (brand model : String)
    (attrs : AttrMap) :
    (upsert db brand model attrs).brand = db.brand ∧
    (∀ e, lookupA db.phones (stable_phone_id brand model) = some e →
      keysOf (upsert db brand model attrs).phones = keysOf db.phones ∧
      lookupA (upsert db brand model attrs).phones
          (stable_phone_id brand model) =
        some { e with attributes := merge_attributes e.attributes attrs } ∧
      ∀ k, k ≠ stable_phone_id brand model →
        lookupA (upsert db brand model attrs).phones k =
          lookupA db.phones k) ∧
    (lookupA db.phones (stable_phone_id brand model) = none →
      keysOf (upsert db brand model attrs).phones =
        keysOf db.phones ++ [stable_phone_id brand model] ∧
      lookupA (upsert db brand model attrs).phones
          (stable_phone_id brand model) =
        some ⟨stable_phone_id brand model, brand, model,
          merge_attributes [] attrs⟩ ∧
      ∀ k, k ≠ stable_phone_id brand model →
        lookupA (upsert db brand model attrs).phones k =
          lookupA db.phones k) := by
  refine ⟨?_, ?_, ?_⟩
  · rfl
  · intro e he
    unfold upsert
    dsimp only
    rw [if_pos (by rw [he]; rfl)]
    exact ⟨keysOf_map_if _ _
        (fun ph : Phone => { ph with attributes := merge_attributes ph.attributes attrs }),
      lookupA_map_if
        (fun ph : Phone => { ph with attributes := merge_attributes ph.attributes attrs })
        he,
      fun k hk => lookupA_map_if_ne
        (fun ph : Phone => { ph with attributes := merge_attributes ph.attributes attrs })
        hk⟩
  · intro hnone
    unfold upsert
    dsimp only
    rw [if_neg (by rw [hnone]; simp)]
    refine ⟨?_, ?_, ?_⟩
    · refine (keysOf_map_if _ _
        (fun ph : Phone => { ph with
          attributes := merge_attributes ph.attributes attrs })).trans ?_
      unfold keysOf
      rw [List.map_append]
      rfl
    · have happ : lookupA
          (db.phones ++ [(stable_phone_id brand model,
            (⟨stable_phone_id brand model, brand, model, []⟩ : Phone))])
          (stable_phone_id brand model) =
          some ⟨stable_phone_id brand model, brand, model, []⟩ := by
        rw [lookupA_append, hnone]
        rw [lookupA_cons, if_pos rfl]
      exact lookupA_map_if
        (fun ph : Phone => { ph with attributes := merge_attributes ph.attributes attrs })
        happ
    · intro k hk
      refine (lookupA_map_if_ne
        (fun ph : Phone => { ph with
          attributes := merge_attributes ph.attributes attrs }) hk).trans ?_
      rw [lookupA_append]
      cases hl : lookupA db.phones k with
      | some w => rfl
      | none =>
        rw [lookupA_cons, if_neg (fun he => hk he.symm)]
        rfl

/-- Witness for C9 at a concrete store: upserting a row for an id already
present keeps the key set and merges only the attributes. -/
theorem upsert_frame_witness :
    lookupA
        [(stable_phone_id "Samsung" "Galaxy S21",
          (⟨stable_phone_id "Samsung" "Galaxy S21", "Samsung", "Galaxy S21",
            [("ram", Value.vInt 8)]⟩ : Phone))]
        (stable_phone_id "Samsung" "Galaxy S21") =
      some ⟨stable_phone_id "Samsung" "Galaxy S21", "Samsung", "Galaxy S21",
        [("ram", Value.vInt 8)]⟩ ∧
    keysOf (upsert
        ⟨"Samsung", [(stable_phone_id "Samsung" "Galaxy S21",
          ⟨stable_phone_id "Samsung" "Galaxy S21", "Samsung", "Galaxy S21",
            [("ram", Value.vInt 8)]⟩)]⟩
        "Samsung" "Galaxy S21" [("storage", Value.vStr "128GB")]).phones =
      keysOf [(stable_phone_id "Samsung" "Galaxy S21",
        (⟨stable_phone_id "Samsung" "Galaxy S21", "Samsung", "Galaxy S21",
          [("ram", Value.vInt 8)]⟩ : Phone))] ∧
    lookupA (upsert
        ⟨"Samsung", [(stable_phone_id "Samsung" "Galaxy S21",
          ⟨stable_phone_id "Samsung" "Galaxy S21", "Samsung", "Galaxy S21",
            [("ram", Value.vInt 8)]⟩)]⟩
        "Samsung" "Galaxy S21" [("storage", Value.vStr "128GB")]).phones
        (stable_phone_id "Samsung" "Galaxy S21") =
      some ⟨stable_phone_id "Samsung" "Galaxy S21", "Samsung", "Galaxy S21",
        merge_attributes [("ram", Value.vInt 8)]
          [("storage", Value.vStr "128GB")]⟩ := by
  have hlook : lookupA
      [(stable_phone_id "Samsung" "Galaxy S21",
        (⟨stable_phone_id "Samsung" "Galaxy S21", "Samsung", "Galaxy S21",
          [("ram", Value.vInt 8)]⟩ : Phone))]
      (stable_phone_id "Samsung" "Galaxy S21") =
      some ⟨stable_phone_id "Samsung" "Galaxy S21", "Samsung", "Galaxy S21",
        [("ram", Value.vInt 8)]⟩ := by
    rw [lookupA_cons, if_pos rfl]
  refine ⟨hlook, ?_, ?_⟩
  · exact ((upsert_frame
      ⟨"Samsung", [(stable_phone_id "Samsung" "Galaxy S21",
        ⟨stable_phone_id "Samsung" "Galaxy S21", "Samsung", "Galaxy S21",
          [("ram", Value.vInt 8)]⟩)]⟩
      "Samsung" "Galaxy S21" [("storage", Value.vStr "128GB")]).2.1
      _ hlook).1
  · exact ((upsert_frame
      ⟨"Samsung", [(stable_phone_id "Samsung" "Galaxy S21",
        ⟨stable_phone_id "Samsung" "Galaxy S21", "Samsung", "Galaxy S21",
          [("ram", Value.vInt 8)]⟩)]⟩
      "Samsung" "Galaxy S21" [("storage", Value.vStr "128GB")]).2.1
      _ hlook).2.1

end BenchSmart
